import Mathlib

/-! # The verbose report and the file names of yacc

A shallow embedding of `src/yacc/verbose.c` (the renderer of `y.output`) and of
`create_file_names` from `src/yacc/main.c`, with theorems about what is printed.

Conventions of the embedding.

* Every `fprintf`/`putc` on `verbose_file` is one value of `Out`: one constructor per
  format string of `verbose.c`, carrying the arguments of the call. `Out.render` gives
  the text of the call, `text` the text of a whole run.
* C `int`, `short` and `char` values are `Int` (no arithmetic of `verbose.c` can
  overflow: it only subtracts 2 from table entries). Loop counters and offsets into
  `ritem` and `null_rules` are `Nat`.
* The linked list `parser[state]` is a `List action`.
* Tables that are only looked up are total functions of the index. The two arrays whose
  bounds matter, `ritem` (scanned by loops that stop at a negative entry) and the scratch
  array `null_rules` (written by `print_nulls`), are lists with checked accesses: an
  access outside the array makes the function return `none`.
-/

namespace Yacc

/-! ## Data -/

/-- The output calls of `verbose.c`, one constructor per format string. -/
inductive Out where
  /-- `"\f\n"` -/
  | formfeed
  /-- `"\n\n%d terminals, %d nonterminals\n"` -/
  | summary_symbols (ntokens nvars : Int)
  /-- `"%d grammar rules, %d states\n"` -/
  | summary_rules (rules states : Int)
  /-- `"\n\nRules never reduced:\n"` -/
  | unused_header
  /-- `"\t%s :"` -/
  | rule_lhs (name : String)
  /-- `" %s"` -/
  | rhs_symbol (name : String)
  /-- `"  (%d)\n"` -/
  | rule_number (n : Int)
  /-- `"\n\n"` -/
  | blank2
  /-- `"State %d contains "` -/
  | state_contains (i : Int)
  /-- `"1 shift/reduce conflict"` -/
  | one_sr
  /-- `"%d shift/reduce conflicts"` -/
  | many_sr (n : Int)
  /-- `", "` -/
  | comma
  /-- `"1 reduce/reduce conflict"` -/
  | one_rr
  /-- `"%d reduce/reduce conflicts"` -/
  | many_rr (n : Int)
  /-- `".\n"` -/
  | period
  /-- `"state %d\n"` -/
  | state_header (state : Int)
  /-- `"%d: shift/reduce conflict (accept, reduce %d) on $end\n"` -/
  | conflict_accept (state r : Int)
  /-- `"%d: shift/reduce conflict (shift %d, reduce %d) on %s\n"` -/
  | conflict_sr (state number r : Int) (name : String)
  /-- `"%d: reduce/reduce conflict (reduce %d, reduce %d) on %s\n"` -/
  | conflict_rr (state number r : Int) (name : String)
  /-- `"\t%s : "` -/
  | core_lhs (name : String)
  /-- `"%s "` -/
  | core_consumed (name : String)
  /-- `putc('.')` -/
  | dot
  /-- `"\t%s : .  (%d)\n"` -/
  | null_rule (name : String) (n : Int)
  /-- `"\n"` and `putc('\n')` -/
  | newline
  /-- `"\t$end  accept\n"` -/
  | accept
  /-- `"\t%s  shift %d\n"` -/
  | shift (name : String) (number : Int)
  /-- `"\t.  error\n"` -/
  | error
  /-- `"\t%s  reduce %d\n"` -/
  | reduce (name : String) (k : Int)
  /-- `"\t.  reduce %d\n"` -/
  | default_reduce (k : Int)
  /-- `"\t%s  goto %d\n"` -/
  | goto (name : String) (k : Int)
deriving DecidableEq, Repr

/-- The `%d` conversion. -/
def fmt_d (n : Int) : String := toString n

/-- The text written by one output call. -/
def Out.render : Out → String
  | .formfeed => "\x0c\n"
  | .summary_symbols t v => "\n\n" ++ fmt_d t ++ " terminals, " ++ fmt_d v ++ " nonterminals\n"
  | .summary_rules r s => fmt_d r ++ " grammar rules, " ++ fmt_d s ++ " states\n"
  | .unused_header => "\n\nRules never reduced:\n"
  | .rule_lhs n => "\t" ++ n ++ " :"
  | .rhs_symbol n => " " ++ n
  | .rule_number n => "  (" ++ fmt_d n ++ ")\n"
  | .blank2 => "\n\n"
  | .state_contains i => "State " ++ fmt_d i ++ " contains "
  | .one_sr => "1 shift/reduce conflict"
  | .many_sr n => fmt_d n ++ " shift/reduce conflicts"
  | .comma => ", "
  | .one_rr => "1 reduce/reduce conflict"
  | .many_rr n => fmt_d n ++ " reduce/reduce conflicts"
  | .period => ".\n"
  | .state_header s => "state " ++ fmt_d s ++ "\n"
  | .conflict_accept s r =>
      fmt_d s ++ ": shift/reduce conflict (accept, reduce " ++ fmt_d r ++ ") on $end\n"
  | .conflict_sr s n r name =>
      fmt_d s ++ ": shift/reduce conflict (shift " ++ fmt_d n ++ ", reduce " ++ fmt_d r
        ++ ") on " ++ name ++ "\n"
  | .conflict_rr s n r name =>
      fmt_d s ++ ": reduce/reduce conflict (reduce " ++ fmt_d n ++ ", reduce " ++ fmt_d r
        ++ ") on " ++ name ++ "\n"
  | .core_lhs n => "\t" ++ n ++ " : "
  | .core_consumed n => n ++ " "
  | .dot => "."
  | .null_rule n k => "\t" ++ n ++ " : .  (" ++ fmt_d k ++ ")\n"
  | .newline => "\n"
  | .accept => "\t$end  accept\n"
  | .shift n k => "\t" ++ n ++ "  shift " ++ fmt_d k ++ "\n"
  | .error => "\t.  error\n"
  | .reduce n k => "\t" ++ n ++ "  reduce " ++ fmt_d k ++ "\n"
  | .default_reduce k => "\t.  reduce " ++ fmt_d k ++ "\n"
  | .goto n k => "\t" ++ n ++ "  goto " ++ fmt_d k ++ "\n"

/-- The text of a sequence of output calls. -/
def text (o : List Out) : String := String.join (o.map Out.render)

/-- One node of the list `parser[state]` (`struct action`; the fields `prec` and `assoc`
are not read by `verbose.c`). -/
structure action where
  symbol : Int
  number : Int
  action_code : Int
  suppressed : Int
deriving DecidableEq, Repr

/-- The item list of a state (`struct core`: `nitems` is the length of `items`). -/
structure core where
  items : List Nat
deriving DecidableEq, Repr

/-- The transitions of a state (`struct shifts`: `nshifts` is the length of `shift`). -/
structure shifts where
  shift : List Int
deriving DecidableEq, Repr

/-- The constants and the macro of `defs.h` that `verbose.c` uses. `defs.h` is not among
the sources, so they are parameters of the embedding. -/
structure Defs where
  SHIFT : Int
  REDUCE : Int
  ISVAR : Int → Bool

/-- The global tables read by `verbose.c`. -/
structure Tables where
  vflag : Int
  nrules : Nat
  nstates : Nat
  ntokens : Int
  nvars : Int
  nunused : Int
  SRtotal : Int
  RRtotal : Int
  final_state : Int
  symbol_name : Int → String
  rlhs : Int → Int
  rrhs : Int → Nat
  ritem : List Int
  rules_used : Int → Int
  SRconflicts : Int → Int
  RRconflicts : Int → Int
  parser : Int → List action
  state_table : Int → core
  shift_table : Int → Option shifts
  accessing_symbol : Int → Int
  defred : Int → Int

/-! ## `log_unused` -/

/-- The loop `for (p = ritem + rrhs[i]; *p >= 0; ++p) fprintf(" %s", symbol_name[*p])`,
run on the part of `ritem` that starts at `p`. Running off the end of `ritem` is `none`. -/
def log_unused_rhs (T : Tables) : List Int → Option (List Out)
  | [] => none
  | v :: rest =>
    if v ≥ 0 then (log_unused_rhs T rest).map (fun o => Out.rhs_symbol (T.symbol_name v) :: o)
    else some []

/-- The body of the loop of `log_unused` for rule `i`. -/
def log_unused_rule (T : Tables) (i : Int) : Option (List Out) :=
  if T.rules_used i = 0 then
    (log_unused_rhs T (T.ritem.drop (T.rrhs i))).map
      (fun rhs => [Out.rule_lhs (T.symbol_name (T.rlhs i))] ++ rhs ++ [Out.rule_number (i - 2)])
  else some []

/-- The loop `for (i = ...; i < nrules; ++i)` of `log_unused`, with `n` iterations left. -/
def log_unused_loop (T : Tables) : Nat → Nat → Option (List Out)
  | 0, _ => some []
  | n + 1, i =>
    match log_unused_rule T i with
    | none => none
    | some cur => (log_unused_loop T n (i + 1)).map (fun rest => cur ++ rest)

/-- `log_unused`. -/
def log_unused (T : Tables) : Option (List Out) :=
  (log_unused_loop T (T.nrules - 3) 3).map (fun o => Out.unused_header :: o)

/-- The right-hand side of rule `r` as the item table gives it: the run of non-negative
entries of `ritem` that starts at offset `rrhs[r]`. -/
def rule_rhs (T : Tables) (r : Int) : List Int :=
  (T.ritem.drop (T.rrhs r)).takeWhile (fun v => decide (0 ≤ v))

/-! ## `log_conflicts` -/

/-- The body of the loop of `log_conflicts` for state `i`. -/
def log_conflicts_state (T : Tables) (i : Int) : List Out :=
  if T.SRconflicts i ≠ 0 ∨ T.RRconflicts i ≠ 0 then
    [Out.state_contains i]
      ++ (if T.SRconflicts i = 1 then [Out.one_sr]
          else if T.SRconflicts i > 1 then [Out.many_sr (T.SRconflicts i)] else [])
      ++ (if T.SRconflicts i ≠ 0 ∧ T.RRconflicts i ≠ 0 then [Out.comma] else [])
      ++ (if T.RRconflicts i = 1 then [Out.one_rr]
          else if T.RRconflicts i > 1 then [Out.many_rr (T.RRconflicts i)] else [])
      ++ [Out.period]
  else []

/-- The loop of `log_conflicts`, with `n` iterations left. -/
def log_conflicts_loop (T : Tables) : Nat → Nat → List Out
  | 0, _ => []
  | n + 1, i => log_conflicts_state T i ++ log_conflicts_loop T n (i + 1)

/-- `log_conflicts`. -/
def log_conflicts (T : Tables) : List Out :=
  Out.blank2 :: log_conflicts_loop T T.nstates 0

/-! ## `print_conflicts` -/

/-- The locals `symbol`, `act` and `number` of `print_conflicts`. -/
structure conflict_vars where
  symbol : Int
  act : Int
  number : Int
deriving DecidableEq, Repr

/-- The body of the loop of `print_conflicts` for the list node `p`: the new values of
the locals and what is printed. -/
def print_conflicts_step (D : Defs) (T : Tables) (state : Int) (v : conflict_vars)
    (p : action) : conflict_vars × List Out :=
  if p.suppressed = 2 then (v, [])
  else if p.symbol ≠ v.symbol then
    ({ symbol := p.symbol, number := p.number,
       act := if p.action_code = D.SHIFT then D.SHIFT else D.REDUCE }, [])
  else if p.suppressed = 1 then
    if state = T.final_state ∧ v.symbol = 0 then
      (v, [Out.conflict_accept state (p.number - 2)])
    else if v.act = D.SHIFT then
      (v, [Out.conflict_sr state v.number (p.number - 2) (T.symbol_name v.symbol)])
    else
      (v, [Out.conflict_rr state (v.number - 2) (p.number - 2) (T.symbol_name v.symbol)])
  else (v, [])

/-- The loop `for (p = ...; p; p = p->next)` of `print_conflicts`. -/
def print_conflicts_loop (D : Defs) (T : Tables) (state : Int) :
    conflict_vars → List action → List Out
  | _, [] => []
  | v, p :: rest =>
    (print_conflicts_step D T state v p).2
      ++ print_conflicts_loop D T state (print_conflicts_step D T state v p).1 rest

/-- The values of the locals `symbol`, `act` and `number` when the loop of
`print_conflicts` has run over the list. -/
def print_conflicts_vars (D : Defs) (T : Tables) (state : Int) :
    conflict_vars → List action → conflict_vars
  | v, [] => v
  | v, p :: rest => print_conflicts_vars D T state (print_conflicts_step D T state v p).1 rest

/-- The values of the locals of `print_conflicts` before its loop. -/
def conflict_init (D : Defs) : conflict_vars :=
  { symbol := -1, act := D.REDUCE, number := 0 }

/-- `print_conflicts`, for the action list `l` of the state. -/
def print_conflicts_list (D : Defs) (T : Tables) (state : Int) (l : List action) : List Out :=
  print_conflicts_loop D T state (conflict_init D) l

/-- `print_conflicts`. -/
def print_conflicts (D : Defs) (T : Tables) (state : Int) : List Out :=
  print_conflicts_list D T state (T.parser state)

/-- The symbol of the most recent action of `l` whose `suppressed` is not 2, and -1 (the
value `print_conflicts` starts from) when `l` has no such action. -/
def last_symbol (l : List action) : Int :=
  match (l.filter (fun p => decide (p.suppressed ≠ 2))).getLast? with
  | some b => b.symbol
  | none => -1

/-! ## `print_core` -/

/-- The loop `while (*sp >= 0) ++sp;` run on the part of `ritem` that starts at `sp`:
the final `sp`, or `none` when the loop runs off the end of `ritem`. -/
def skip_symbols : List Int → Nat → Option Nat
  | [], _ => none
  | v :: rest, sp => if v ≥ 0 then skip_symbols rest (sp + 1) else some sp

/-- The loop `for (sp = ritem + rrhs[rule]; sp < sp1; sp++) fprintf("%s ", ...)` with
`n` iterations left. -/
def print_core_consumed (T : Tables) : Nat → Nat → Option (List Out)
  | 0, _ => some []
  | n + 1, sp =>
    match T.ritem[sp]? with
    | none => none
    | some v =>
      (print_core_consumed T n (sp + 1)).map
        (fun o => Out.core_consumed (T.symbol_name v) :: o)

/-- The loop `while (*sp >= 0) { fprintf(" %s", ...); sp++; }` followed by
`fprintf("  (%d)\n", -2 - *sp)`, run on the part of `ritem` that starts at `sp`. -/
def print_core_remaining (T : Tables) : List Int → Option (List Out)
  | [] => none
  | v :: rest =>
    if v ≥ 0 then
      (print_core_remaining T rest).map (fun o => Out.rhs_symbol (T.symbol_name v) :: o)
    else some [Out.rule_number (-2 - v)]

/-- The body of the loop of `print_core` for the item at offset `item` of `ritem`. -/
def print_core_item (T : Tables) (item : Nat) : Option (List Out) :=
  match skip_symbols (T.ritem.drop item) item with
  | none => none
  | some sp =>
    match T.ritem[sp]? with
    | none => none
    | some v =>
      match print_core_consumed T (item - T.rrhs (-v)) (T.rrhs (-v)) with
      | none => none
      | some consumed =>
        (print_core_remaining T
            (T.ritem.drop (if T.rrhs (-v) < item then item else T.rrhs (-v)))).map
          (fun remaining =>
            [Out.core_lhs (T.symbol_name (T.rlhs (-v)))] ++ consumed ++ [Out.dot] ++ remaining)

/-- The loop of `print_core` over the items of the state. -/
def print_core_items (T : Tables) : List Nat → Option (List Out)
  | [] => some []
  | item :: rest =>
    match print_core_item T item with
    | none => none
    | some o => (print_core_items T rest).map (fun os => o ++ os)

/-- `print_core`. -/
def print_core (T : Tables) (state : Int) : Option (List Out) :=
  print_core_items T (T.state_table state).items

/-- What an item stands for: its rule, the symbols before the dot and those after it. -/
structure item_view where
  rule : Int
  consumed : List Int
  remaining : List Int
deriving DecidableEq, Repr

/-- The item at offset `item` of a well-formed item table: the right-hand side of the rule,
`consumed ++ remaining`, is a run of non-negative entries that starts at `ritem[rrhs[rule]]`
and ends just before the entry `-rule`, a negative number, and `item` is the offset of the
first entry of `remaining`, or of the entry `-rule` when nothing remains. -/
def item_wf (T : Tables) (item : Nat) (iv : item_view) : Prop :=
  0 < iv.rule ∧ (∀ x ∈ iv.consumed ++ iv.remaining, 0 ≤ x)
    ∧ (∃ B, T.ritem.drop (T.rrhs iv.rule) = iv.consumed ++ iv.remaining ++ (-iv.rule) :: B)
    ∧ item = T.rrhs iv.rule + iv.consumed.length

/-! ## `print_nulls` -/

/-- The assignment `null_rules[k] = v`; `none` when `k` is outside the array. -/
def null_rules_write (null_rules : List Int) (k : Nat) (v : Int) : Option (List Int) :=
  if k < null_rules.length then some (null_rules.set k v) else none

/-- The loop `for (j = 0; j < nnulls && i > null_rules[j]; ++j) continue;`, with
`nnulls - j` given as the first argument: the final `j`. -/
def print_nulls_find (null_rules : List Int) (i : Int) : Nat → Nat → Option Nat
  | 0, j => some j
  | n + 1, j =>
    match null_rules[j]? with
    | none => none
    | some v => if i > v then print_nulls_find null_rules i n (j + 1) else some j

/-- The loop `for (k = ...; k > j; --k) null_rules[k] = null_rules[k - 1];`, from `k`. -/
def print_nulls_shift (j : Nat) : Nat → List Int → Option (List Int)
  | 0, null_rules => some null_rules
  | k + 1, null_rules =>
    if k + 1 > j then
      match null_rules[k]? with
      | none => none
      | some v =>
        match null_rules_write null_rules (k + 1) v with
        | none => none
        | some arr => print_nulls_shift j k arr
    else some null_rules

/-- The insertion of the empty rule `i` into the first `nnulls` entries of `null_rules`:
the new array and the new `nnulls`. -/
def print_nulls_insert (null_rules : List Int) (nnulls : Nat) (i : Int) :
    Option (List Int × Nat) :=
  match print_nulls_find null_rules i nnulls 0 with
  | none => none
  | some j =>
    if j = nnulls then
      (null_rules_write null_rules j i).map (fun arr => (arr, nnulls + 1))
    else
      match null_rules[j]? with
      | none => none
      | some v =>
        if i ≠ v then
          match print_nulls_shift j nnulls null_rules with
          | none => none
          | some arr => (null_rules_write arr j i).map (fun arr2 => (arr2, nnulls + 1))
        else some (null_rules, nnulls)

/-- The test of `print_nulls` on a list node: a REDUCE action with `suppressed` 0 or 1
whose rule has an empty right-hand side. -/
def null_action (D : Defs) (T : Tables) (p : action) : Prop :=
  (p.action_code = D.REDUCE ∧ (p.suppressed = 0 ∨ p.suppressed = 1))
    ∧ T.rrhs p.number + 1 = T.rrhs (p.number + 1)

instance (D : Defs) (T : Tables) (p : action) : Decidable (null_action D T p) := by
  unfold null_action; exact inferInstance

/-- The first loop of `print_nulls`: the array and `nnulls` after the list. -/
def print_nulls_scan (D : Defs) (T : Tables) :
    List action → List Int → Nat → Option (List Int × Nat)
  | [], null_rules, nnulls => some (null_rules, nnulls)
  | p :: rest, null_rules, nnulls =>
    if null_action D T p then
      match print_nulls_insert null_rules nnulls p.number with
      | none => none
      | some r => print_nulls_scan D T rest r.1 r.2
    else print_nulls_scan D T rest null_rules nnulls

/-- The second loop of `print_nulls`, from `i`, with `nnulls - i` as the first argument. -/
def print_nulls_lines (T : Tables) (null_rules : List Int) : Nat → Nat → Option (List Out)
  | 0, _ => some []
  | n + 1, i =>
    match null_rules[i]? with
    | none => none
    | some j =>
      (print_nulls_lines T null_rules n (i + 1)).map
        (fun o => Out.null_rule (T.symbol_name (T.rlhs j)) (j - 2) :: o)

/-- `print_nulls` for the action list `l`, started with the array `null_rules`: the
output and the array it leaves. -/
def print_nulls_list (D : Defs) (T : Tables) (l : List action) (null_rules : List Int) :
    Option (List Out × List Int) :=
  match print_nulls_scan D T l null_rules 0 with
  | none => none
  | some r =>
    (print_nulls_lines T r.1 r.2 0).map (fun o => (o ++ [Out.newline], r.1))

/-- `print_nulls`. -/
def print_nulls (D : Defs) (T : Tables) (state : Int) (null_rules : List Int) :
    Option (List Out × List Int) :=
  print_nulls_list D T (T.parser state) null_rules

/-- Insertion of `i` into an increasing list unless it is there: what the body of the
first loop of `print_nulls` does to the first `nnulls` entries of `null_rules`. -/
def null_insert (i : Int) : List Int → List Int
  | [] => [i]
  | x :: r => if x < i then x :: null_insert i r else if x = i then x :: r else i :: x :: r

/-- The list of empty rules recorded along the action list, from the list `L`. -/
def null_list (D : Defs) (T : Tables) : List action → List Int → List Int
  | [], L => L
  | p :: rest, L =>
    if null_action D T p then null_list D T rest (null_insert p.number L)
    else null_list D T rest L

/-- The number of distinct empty rules that occur in `l` as a REDUCE action with
`suppressed` 0 or 1. -/
def null_count (D : Defs) (T : Tables) (l : List action) : Nat :=
  (((l.filter (fun a => decide (null_action D T a))).map (fun a => a.number)).dedup).length

/-! ## `print_actions` -/

/-- The counting loop of `print_shifts`. -/
def print_shifts_count (D : Defs) : List action → Nat
  | [] => 0
  | q :: rest =>
    (if q.suppressed < 2 ∧ q.action_code = D.SHIFT then 1 else 0) + print_shifts_count D rest

/-- The printing loop of `print_shifts`. -/
def print_shifts_loop (D : Defs) (T : Tables) : List action → List Out
  | [] => []
  | p :: rest =>
    (if p.action_code = D.SHIFT ∧ p.suppressed = 0 then
        [Out.shift (T.symbol_name p.symbol) p.number]
      else [])
      ++ print_shifts_loop D T rest

/-- `print_shifts`. -/
def print_shifts (D : Defs) (T : Tables) (p : List action) : List Out :=
  if print_shifts_count D p > 0 then print_shifts_loop D T p else []

/-- The first loop of `print_reductions`: the final value of `anyreds`. -/
def print_reductions_any (D : Defs) : List action → Int
  | [] => 0
  | q :: rest =>
    if q.action_code = D.REDUCE ∧ q.suppressed < 2 then 1 else print_reductions_any D rest

/-- The second loop of `print_reductions`. -/
def print_reductions_loop (D : Defs) (T : Tables) (pdefred : Int) : List action → List Out
  | [] => []
  | p :: rest =>
    (if p.action_code = D.REDUCE ∧ p.number ≠ pdefred then
        if p.suppressed = 0 then [Out.reduce (T.symbol_name p.symbol) (p.number - 2)] else []
      else [])
      ++ print_reductions_loop D T pdefred rest

/-- `print_reductions`. -/
def print_reductions (D : Defs) (T : Tables) (p : List action) (pdefred : Int) : List Out :=
  if print_reductions_any D p = 0 then [Out.error]
  else
    print_reductions_loop D T pdefred p
      ++ (if pdefred > 0 then [Out.default_reduce (pdefred - 2)] else [])

/-- The loop of `print_gotos` over the transitions. -/
def print_gotos_loop (D : Defs) (T : Tables) : List Int → List Out
  | [] => []
  | k :: rest =>
    (if D.ISVAR (T.accessing_symbol k) then
        [Out.goto (T.symbol_name (T.accessing_symbol k)) k]
      else [])
      ++ print_gotos_loop D T rest

/-- `print_gotos`, for the transitions `sp` of the state. -/
def print_gotos (D : Defs) (T : Tables) (sp : shifts) : List Out :=
  Out.newline :: print_gotos_loop D T sp.shift

/-- The part `p = parser[stateno]; if (p) { print_shifts(p); print_reductions(p, ...); }`
of `print_actions`. -/
def print_actions_list (D : Defs) (T : Tables) (stateno : Int) : List Out :=
  match T.parser stateno with
  | [] => []
  | p => print_shifts D T p ++ print_reductions D T p (T.defred stateno)

/-- The part of `print_actions` after `sp = shift_table[stateno]`: `print_gotos` is called
when the state has transitions and the target of the last one is accessed by a
nonterminal. -/
def print_actions_gotos (D : Defs) (T : Tables) (stateno : Int) : List Out :=
  match T.shift_table stateno with
  | none => []
  | some sp =>
    match sp.shift.getLast? with
    | none => []
    | some last => if D.ISVAR (T.accessing_symbol last) then print_gotos D T sp else []

/-- `print_actions`. -/
def print_actions (D : Defs) (T : Tables) (stateno : Int) : List Out :=
  (if stateno = T.final_state then [Out.accept] else [])
    ++ print_actions_list D T stateno ++ print_actions_gotos D T stateno

/-- Tells the `goto` lines from the other output calls. -/
def Out.is_goto : Out → Bool
  | .goto _ _ => true
  | _ => false

/-! ## `print_state` and `verbose` -/

/-- `print_state`: the output and the array `null_rules` it leaves. -/
def print_state (D : Defs) (T : Tables) (state : Int) (null_rules : List Int) :
    Option (List Out × List Int) :=
  match print_core T state with
  | none => none
  | some core_out =>
    (print_nulls D T state null_rules).map (fun r =>
      ((if state ≠ 0 then [Out.blank2] else [])
        ++ (if T.SRconflicts state ≠ 0 ∨ T.RRconflicts state ≠ 0 then print_conflicts D T state
            else [])
        ++ [Out.state_header state] ++ core_out ++ r.1 ++ print_actions D T state, r.2))

/-- The loop `for (i = ...; i < nstates; i++) print_state(i)` with `n` iterations left. -/
def verbose_states (D : Defs) (T : Tables) : Nat → Nat → List Int → Option (List Out × List Int)
  | 0, _, null_rules => some ([], null_rules)
  | n + 1, i, null_rules =>
    match print_state D T i null_rules with
    | none => none
    | some r =>
      (verbose_states D T n (i + 1) r.2).map (fun r2 => (r.1 ++ r2.1, r2.2))

/-- `verbose`. The argument `null_rules` is the content of the array of `nrules` shorts
that `reallocarray` returns, which the C code does not initialise. -/
def verbose (D : Defs) (T : Tables) (null_rules : List Int) : Option (List Out) :=
  if T.vflag = 0 then some []
  else
    match verbose_states D T T.nstates 0 null_rules with
    | none => none
    | some r =>
      match (if T.nunused ≠ 0 then log_unused T else some []) with
      | none => none
      | some unused =>
        some ([Out.formfeed] ++ r.1 ++ unused
          ++ (if T.SRtotal ≠ 0 ∨ T.RRtotal ≠ 0 then log_conflicts T else [])
          ++ [Out.summary_symbols T.ntokens T.nvars,
              Out.summary_rules ((T.nrules : Int) - 2) T.nstates])

/-! ## `create_file_names` (`main.c`)

C strings are lists of characters without the terminating NUL; the block that `strdup`
returns is a list of characters that ends with the NUL, and a store outside the block makes
the function return `none`. Allocation is assumed to succeed. -/

/-- The file name suffixes of `defs.h` (not among the sources: parameters). -/
structure Suffixes where
  OUTPUT_SUFFIX : List Char
  CODE_SUFFIX : List Char
  DEFINES_SUFFIX : List Char
  VERBOSE_SUFFIX : List Char

/-- The globals of `main.c` that `create_file_names` reads or writes; a null pointer is
`none`. `stderr` collects the messages written to the standard error stream. -/
structure Names where
  progname : List Char
  dflag : Int
  rflag : Int
  vflag : Int
  explicit_file_name : Int
  file_prefix : List Char
  output_file_name : Option (List Char)
  code_file_name : Option (List Char)
  defines_file_name : Option (List Char)
  verbose_file_name : Option (List Char)
  stderr : List (List Char)
deriving DecidableEq, Repr

/-- The C function `strrchr(s, c)` for a character `c` other than NUL: the offset in `s` of
the last occurrence of `c`, `none` for the null pointer. -/
def strrchr (c : Char) : List Char → Option Nat
  | [] => none
  | x :: rest =>
    match strrchr c rest with
    | some k => some (k + 1)
    | none => if x = c then some 0 else none

/-- The block `strdup(s)` returns: the characters of `s` and the NUL. -/
def strdup (s : List Char) : List Char := s ++ ['\x00']

/-- The C function `strncpy(dest, src, n)` on the block `dest`: the first `n` bytes become
the first `n` characters of `src`, padded with NUL when `src` is shorter. -/
def strncpy (dest src : List Char) (n : Nat) : Option (List Char) :=
  if n ≤ dest.length then
    some ((src ++ List.replicate (n - src.length) '\x00').take n ++ dest.drop n)
  else none

/-- The store `block[k] = c`. -/
def store (block : List Char) (k : Nat) (c : Char) : Option (List Char) :=
  if k < block.length then some (block.set k c) else none

/-- The C string held by a block: the characters before the first NUL. -/
def cstring (block : List Char) : List Char :=
  block.takeWhile (fun c => decide (c ≠ '\x00'))

/-- The test of `create_file_names` on the suffix: `strcmp` with each known suffix. -/
def known_suffix (suffix : List Char) : Bool :=
  suffix == ".c".toList || suffix == ".C".toList || suffix == ".cc".toList
    || suffix == ".cxx".toList || suffix == ".cpp".toList

/-- The branch of `create_file_names` for `-d` with an explicit output file name: the new
values of `dflag` and `defines_file_name` and the message written, if any. -/
def create_defines_name (progname output_file_name : List Char) (dflag : Int) :
    Option (Int × Option (List Char) × List (List Char)) :=
  match strrchr '.' output_file_name with
  | some off =>
    if known_suffix (output_file_name.drop off) then
      match strncpy (strdup output_file_name) output_file_name (off + 1) with
      | none => none
      | some b1 =>
        match store b1 (off + 1) 'h' with
        | none => none
        | some b2 =>
          match store b2 (off + 2) '\x00' with
          | none => none
          | some b3 => some (dflag, some (cstring b3), [])
    else
      some (0, none,
        [progname ++ ": suffix of output file name ".toList ++ output_file_name
          ++ " not recognized, no -d file generated.\n".toList])
  | none =>
    some (0, none,
      [progname ++ ": suffix of output file name ".toList ++ output_file_name
        ++ " not recognized, no -d file generated.\n".toList])

/-- `create_file_names`. -/
def create_file_names (S : Suffixes) (g : Names) : Option Names :=
  let output_file_name :=
    match g.output_file_name with
    | none => g.file_prefix ++ S.OUTPUT_SUFFIX
    | some n => n
  let code_file_name :=
    if g.rflag ≠ 0 then g.file_prefix ++ S.CODE_SUFFIX else output_file_name
  let verbose_file_name :=
    if g.vflag ≠ 0 then some (g.file_prefix ++ S.VERBOSE_SUFFIX) else g.verbose_file_name
  if g.dflag ≠ 0 then
    if g.explicit_file_name ≠ 0 then
      match create_defines_name g.progname output_file_name g.dflag with
      | none => none
      | some r =>
        some { g with
          output_file_name := some output_file_name, code_file_name := some code_file_name,
          dflag := r.1, defines_file_name := r.2.1, stderr := g.stderr ++ r.2.2,
          verbose_file_name := verbose_file_name }
    else
      some { g with
        output_file_name := some output_file_name, code_file_name := some code_file_name,
        defines_file_name := some (g.file_prefix ++ S.DEFINES_SUFFIX),
        verbose_file_name := verbose_file_name }
  else
    some { g with
      output_file_name := some output_file_name, code_file_name := some code_file_name,
      verbose_file_name := verbose_file_name }

/-- The suffixes of Berkeley yacc. -/
def example_suffixes : Suffixes :=
  { OUTPUT_SUFFIX := ".tab.c".toList, CODE_SUFFIX := ".code.c".toList,
    DEFINES_SUFFIX := ".tab.h".toList, VERBOSE_SUFFIX := ".output".toList }

/-- The globals after `getargs` for the command line `yacc -d -o name file`. -/
def example_names (name : List Char) : Names :=
  { progname := "yacc".toList, dflag := 1, rflag := 0, vflag := 0, explicit_file_name := 1,
    file_prefix := "y".toList, output_file_name := some name, code_file_name := none,
    defines_file_name := none, verbose_file_name := none, stderr := [] }

/-! ## A small grammar

The grammar `S : E a`, `E : `, `E : a` with the symbols `$end` 0, `error` 1, `a` 2,
`$accept` 3, `S` 4, `E` 5, and two states of a report, used to run the definitions. -/

/-- The values of Berkeley yacc for the constants of `defs.h`, with `start_symbol` 3. -/
def example_defs : Defs :=
  { SHIFT := 1, REDUCE := 2, ISVAR := fun s => decide (3 ≤ s) }

/-- Tables of the small grammar. -/
def example_tables : Tables :=
  { vflag := 1, nrules := 6, nstates := 2, ntokens := 3, nvars := 3, nunused := 1,
    SRtotal := 1, RRtotal := 0, final_state := 1,
    symbol_name := fun s =>
      if s = 0 then "$end" else if s = 1 then "error" else if s = 2 then "a"
      else if s = 3 then "$accept" else if s = 4 then "S" else "E",
    rlhs := fun r => if r = 2 then 3 else if r = 3 then 4 else 5,
    rrhs := fun r =>
      if r ≤ 1 then 0 else if r = 2 then 1 else if r = 3 then 4 else if r = 4 then 7
      else if r = 5 then 8 else 10,
    ritem := [-1, 4, 0, -2, 5, 2, -3, -4, 2, -5],
    rules_used := fun r => if r = 5 then 0 else 1,
    SRconflicts := fun s => if s = 0 then 1 else 0,
    RRconflicts := fun _ => 0,
    parser := fun s =>
      if s = 0 then [⟨2, 3, 1, 0⟩, ⟨2, 4, 2, 1⟩, ⟨0, 4, 2, 0⟩]
      else [⟨0, 2, 1, 0⟩],
    state_table := fun s => if s = 0 then ⟨[1, 4, 7, 8]⟩ else ⟨[2]⟩,
    shift_table := fun s => if s = 0 then some ⟨[3, 1, 2]⟩ else none,
    accessing_symbol := fun k =>
      if k = 1 then 4 else if k = 2 then 5 else if k = 3 then 2 else 0,
    defred := fun s => if s = 0 then 4 else 0 }

/-! ## Lemmas -/

theorem print_reductions_any_ne_zero_iff (D : Defs) (l : List action) :
    print_reductions_any D l ≠ 0 ↔ ∃ q ∈ l, q.action_code = D.REDUCE ∧ q.suppressed < 2 := by
  induction l with
  | nil => simp [print_reductions_any]
  | cons q rest ih =>
    simp only [print_reductions_any]
    split
    · rename_i h; simp; left; exact h
    · rename_i h; rw [ih]; simp; tauto

theorem print_reductions_loop_eq_filter (D : Defs) (T : Tables) (d : Int) (l : List action) :
    print_reductions_loop D T d l =
      (l.filter (fun a => a.action_code = D.REDUCE ∧ a.suppressed = 0 ∧ a.number ≠ d)).map
        (fun a => Out.reduce (T.symbol_name a.symbol) (a.number - 2)) := by
  induction l with
  | nil => rfl
  | cons p rest ih =>
    simp only [print_reductions_loop, ih, List.filter_cons]
    by_cases h1 : p.action_code = D.REDUCE <;> by_cases h2 : p.number = d <;>
      by_cases h3 : p.suppressed = 0 <;> simp [h1, h2, h3]

theorem print_conflicts_loop_append (D : Defs) (T : Tables) (state : Int) (l1 l2 : List action) (v : conflict_vars) :
    print_conflicts_loop D T state v (l1 ++ l2) =
      print_conflicts_loop D T state v l1
        ++ print_conflicts_loop D T state (print_conflicts_vars D T state v l1) l2 := by
  induction l1 generalizing v with
  | nil => simp [print_conflicts_loop, print_conflicts_vars]
  | cons p rest ih =>
    rw [List.cons_append]
    simp only [print_conflicts_loop, print_conflicts_vars, ih, List.append_assoc]

theorem print_conflicts_vars_append (D : Defs) (T : Tables) (state : Int) (l1 l2 : List action) (v : conflict_vars) :
    print_conflicts_vars D T state v (l1 ++ l2) =
      print_conflicts_vars D T state (print_conflicts_vars D T state v l1) l2 := by
  induction l1 generalizing v with
  | nil => simp [print_conflicts_vars]
  | cons p rest ih =>
    rw [List.cons_append]
    simp only [print_conflicts_vars, ih]

theorem print_conflicts_step_suppressed_two (D : Defs) (T : Tables) (state : Int) (v : conflict_vars) (p : action)
    (h : p.suppressed = 2) : print_conflicts_step D T state v p = (v, []) := by
  simp [print_conflicts_step, h]

theorem print_conflicts_step_symbol (D : Defs) (T : Tables) (state : Int) (v : conflict_vars) (p : action)
    (h : p.suppressed ≠ 2) : (print_conflicts_step D T state v p).1.symbol = p.symbol := by
  unfold print_conflicts_step
  rw [if_neg h]
  by_cases h1 : p.symbol ≠ v.symbol
  · rw [if_pos h1]
  · rw [if_neg h1]
    have : p.symbol = v.symbol := by simpa using h1
    split
    · split
      · exact this.symm
      · split <;> exact this.symm
    · exact this.symm

theorem last_symbol_append_two (l : List action) (p : action) (h : p.suppressed = 2) :
    last_symbol (l ++ [p]) = last_symbol l := by
  simp [last_symbol, List.filter_append, h]

theorem last_symbol_append (l : List action) (p : action) (h : p.suppressed ≠ 2) :
    last_symbol (l ++ [p]) = p.symbol := by
  simp [last_symbol, List.filter_append, h]

theorem print_conflicts_vars_symbol (D : Defs) (T : Tables) (state : Int) (l : List action) :
    (print_conflicts_vars D T state (conflict_init D) l).symbol = last_symbol l := by
  induction l using List.reverseRecOn with
  | nil => rfl
  | append_singleton l p ih =>
    rw [print_conflicts_vars_append]
    simp only [print_conflicts_vars]
    by_cases h : p.suppressed = 2
    · rw [print_conflicts_step_suppressed_two D T state _ p h, last_symbol_append_two l p h, ih]
    · rw [print_conflicts_step_symbol D T state _ p h, last_symbol_append l p h]

/-- the locals do not move along actions that are skipped or agree with the recorded symbol -/
theorem print_conflicts_vars_same (D : Defs) (T : Tables) (state : Int) (v : conflict_vars) (l : List action)
    (h : ∀ x ∈ l, x.suppressed ≠ 2 → x.symbol = v.symbol) :
    print_conflicts_vars D T state v l = v := by
  induction l with
  | nil => rfl
  | cons p rest ih =>
    simp only [print_conflicts_vars]
    have hstep : (print_conflicts_step D T state v p).1 = v := by
      unfold print_conflicts_step
      by_cases h2 : p.suppressed = 2
      · rw [if_pos h2]
      · rw [if_neg h2]
        have hs := h p (List.mem_cons_self _ _) h2
        have : ¬ p.symbol ≠ v.symbol := by simpa using hs
        rw [if_neg this]
        split
        · split
          · rfl
          · split <;> rfl
        · rfl
    rw [hstep]
    exact ih (fun x hx => h x (List.mem_cons_of_mem _ hx))

theorem conflict_accept_mem_loop (D : Defs) (T : Tables) (state : Int) (l : List action) (v : conflict_vars)
    (s r : Int) (h : Out.conflict_accept s r ∈ print_conflicts_loop D T state v l) :
    (s = state ∧ state = T.final_state)
      ∧ ∃ a ∈ l, a.symbol = 0 ∧ a.suppressed = 1 ∧ r = a.number - 2 := by
  induction l generalizing v with
  | nil => simp [print_conflicts_loop] at h
  | cons p rest ih =>
    simp only [print_conflicts_loop, List.mem_append] at h
    rcases h with h | h
    · unfold print_conflicts_step at h
      by_cases h2 : p.suppressed = 2
      · simp [h2] at h
      · rw [if_neg h2] at h
        by_cases hs : p.symbol ≠ v.symbol
        · simp [hs] at h
        · rw [if_neg hs] at h
          have hs' : p.symbol = v.symbol := by simpa using hs
          by_cases h1 : p.suppressed = 1
          · rw [if_pos h1] at h
            by_cases hf : state = T.final_state ∧ v.symbol = 0
            · rw [if_pos hf] at h
              simp only [List.mem_singleton, Out.conflict_accept.injEq] at h
              exact ⟨⟨h.1, hf.1⟩, p, List.mem_cons_self _ _, by rw [hs']; exact hf.2, h1, h.2⟩
            · rw [if_neg hf] at h
              split at h <;> simp at h
          · simp [h1] at h
    · obtain ⟨h1, a, ha, h2⟩ := ih _ h
      exact ⟨h1, a, List.mem_cons_of_mem _ ha, h2⟩

theorem print_shifts_loop_no_goto (D : Defs) (T : Tables) (p : List action) :
    (print_shifts_loop D T p).filter Out.is_goto = [] := by
  induction p with
  | nil => rfl
  | cons a rest ih =>
    simp only [print_shifts_loop, List.filter_append, ih, List.append_nil]
    split <;> rfl

theorem print_shifts_no_goto (D : Defs) (T : Tables) (p : List action) :
    (print_shifts D T p).filter Out.is_goto = [] := by
  unfold print_shifts
  split
  · exact print_shifts_loop_no_goto D T p
  · rfl

theorem print_reductions_loop_no_goto (D : Defs) (T : Tables) (d : Int) (p : List action) :
    (print_reductions_loop D T d p).filter Out.is_goto = [] := by
  induction p with
  | nil => rfl
  | cons a rest ih =>
    simp only [print_reductions_loop, List.filter_append, ih, List.append_nil]
    split
    · split <;> rfl
    · rfl

theorem print_reductions_no_goto (D : Defs) (T : Tables) (d : Int) (p : List action) :
    (print_reductions D T p d).filter Out.is_goto = [] := by
  unfold print_reductions
  split
  · rfl
  · rw [List.filter_append, print_reductions_loop_no_goto]
    split <;> rfl

theorem print_gotos_loop_eq_filter (D : Defs) (T : Tables) (l : List Int) :
    print_gotos_loop D T l =
      (l.filter (fun k => D.ISVAR (T.accessing_symbol k))).map
        (fun k => Out.goto (T.symbol_name (T.accessing_symbol k)) k) := by
  induction l with
  | nil => rfl
  | cons k rest ih =>
    simp only [print_gotos_loop, ih, List.filter_cons]
    split <;> simp

theorem filter_is_goto_map_goto (T : Tables) (l : List Int) :
    (l.map (fun k => Out.goto (T.symbol_name (T.accessing_symbol k)) k)).filter Out.is_goto =
      l.map (fun k => Out.goto (T.symbol_name (T.accessing_symbol k)) k) := by
  rw [List.filter_eq_self]
  intro a ha
  rw [List.mem_map] at ha
  obtain ⟨k, _, rfl⟩ := ha
  rfl

theorem print_actions_head_no_goto (D : Defs) (T : Tables) (stateno : Int) :
    ((if stateno = T.final_state then [Out.accept] else [])
      ++ print_actions_list D T stateno).filter Out.is_goto = [] := by
  rw [List.filter_append]
  have h1 : (if stateno = T.final_state then [Out.accept] else []).filter Out.is_goto = [] := by
    split <;> rfl
  rw [h1]
  unfold print_actions_list
  split
  · rfl
  · rw [List.filter_append, print_shifts_no_goto, print_reductions_no_goto]; rfl

theorem log_unused_rhs_eq (T : Tables) (l : List Int) (h : ∃ x ∈ l, x < 0) :
    log_unused_rhs T l =
      some ((l.takeWhile (fun v => decide (0 ≤ v))).map
        (fun v => Out.rhs_symbol (T.symbol_name v))) := by
  induction l with
  | nil => simp at h
  | cons v rest ih =>
    simp only [log_unused_rhs]
    by_cases hv : v ≥ 0
    · rw [if_pos hv]
      have hrest : ∃ x ∈ rest, x < 0 := by
        obtain ⟨x, hx, hx0⟩ := h
        rcases List.mem_cons.mp hx with rfl | hx
        · omega
        · exact ⟨x, hx, hx0⟩
      rw [ih hrest]
      simp [List.takeWhile_cons, hv]
    · rw [if_neg hv]
      simp [List.takeWhile_cons, hv]

theorem log_unused_loop_eq (T : Tables) (n i : Nat)
    (h : ∀ k : Nat, i ≤ k → k < i + n → T.rules_used k = 0 →
      ∃ x ∈ T.ritem.drop (T.rrhs k), x < 0) :
    log_unused_loop T n i =
      some (((List.range' i n).filter (fun k : Nat => decide (T.rules_used k = 0))).flatMap
        (fun k : Nat =>
          [Out.rule_lhs (T.symbol_name (T.rlhs k))]
            ++ (rule_rhs T k).map (fun v => Out.rhs_symbol (T.symbol_name v))
            ++ [Out.rule_number ((k : Int) - 2)])) := by
  induction n generalizing i with
  | zero => rfl
  | succ n ih =>
    simp only [log_unused_loop]
    have hrest := ih (i + 1) (fun k h1 h2 => h k (by omega) (by omega))
    rw [hrest]
    unfold log_unused_rule
    by_cases hu : T.rules_used i = 0
    · rw [if_pos hu, log_unused_rhs_eq T _ (h i (le_refl _) (by omega) hu)]
      simp [List.range'_succ, List.filter_cons, hu, rule_rhs]
    · rw [if_neg hu]
      simp [List.range'_succ, List.filter_cons, hu]

theorem skip_symbols_run (m : List Int) (t : Int) (B : List Int) (sp : Nat)
    (hm : ∀ x ∈ m, 0 ≤ x) (ht : t < 0) :
    skip_symbols (m ++ t :: B) sp = some (sp + m.length) := by
  induction m generalizing sp with
  | nil => simp [skip_symbols, ht]
  | cons v rest ih =>
    have hv : v ≥ 0 := hm v (List.mem_cons_self _ _)
    rw [List.cons_append]
    simp only [skip_symbols, if_pos hv]
    rw [ih (sp + 1) (fun x hx => hm x (List.mem_cons_of_mem _ hx))]
    simp only [List.length_cons]
    congr 1
    omega

theorem print_core_consumed_run (T : Tables) (c : List Int) (sp : Nat)
    (h : ∀ k, k < c.length → T.ritem[sp + k]? = c.get? k) :
    print_core_consumed T c.length sp =
      some (c.map (fun v => Out.core_consumed (T.symbol_name v))) := by
  induction c generalizing sp with
  | nil => rfl
  | cons v rest ih =>
    simp only [List.length_cons, print_core_consumed]
    have h0 := h 0 (by simp)
    simp only [Nat.add_zero, List.get?_cons_zero] at h0
    rw [h0]
    simp only
    rw [ih (sp + 1) (fun k hk => by
      have := h (k + 1) (by simp; omega)
      rw [List.get?_cons_succ] at this
      rw [← this]; congr 1; omega)]
    rfl

theorem print_core_remaining_run (T : Tables) (m : List Int) (t : Int) (B : List Int)
    (hm : ∀ x ∈ m, 0 ≤ x) (ht : t < 0) :
    print_core_remaining T (m ++ t :: B) =
      some (m.map (fun v => Out.rhs_symbol (T.symbol_name v)) ++ [Out.rule_number (-2 - t)]) := by
  induction m with
  | nil => simp [print_core_remaining, ht]
  | cons v rest ih =>
    have hv : v ≥ 0 := hm v (List.mem_cons_self _ _)
    rw [List.cons_append]
    simp only [print_core_remaining, if_pos hv]
    rw [ih (fun x hx => hm x (List.mem_cons_of_mem _ hx))]
    rfl

theorem print_core_item_eq (T : Tables) (item : Nat) (iv : item_view) (h : item_wf T item iv) :
    print_core_item T item =
      some ([Out.core_lhs (T.symbol_name (T.rlhs iv.rule))]
        ++ iv.consumed.map (fun v => Out.core_consumed (T.symbol_name v))
        ++ [Out.dot]
        ++ iv.remaining.map (fun v => Out.rhs_symbol (T.symbol_name v))
        ++ [Out.rule_number (iv.rule - 2)]) := by
  obtain ⟨hr, hnn, ⟨B, hB⟩, hitem⟩ := h
  have hc : ∀ x ∈ iv.consumed, 0 ≤ x := fun x hx => hnn x (List.mem_append_left _ hx)
  have hm : ∀ x ∈ iv.remaining, 0 ≤ x := fun x hx => hnn x (List.mem_append_right _ hx)
  have hneg : -iv.rule < 0 := by omega
  -- the part of ritem from the item on
  have hdrop : T.ritem.drop item = iv.remaining ++ (-iv.rule) :: B := by
    rw [hitem, ← List.drop_drop, hB, List.append_assoc, List.drop_left]
  -- entries of ritem from rrhs[rule] on
  have hget : ∀ k, T.ritem[T.rrhs iv.rule + k]? =
      (iv.consumed ++ iv.remaining ++ (-iv.rule) :: B)[k]? := by
    intro k
    rw [← hB, List.getElem?_drop]
  unfold print_core_item
  rw [hdrop, skip_symbols_run _ _ _ _ hm hneg]
  simp only
  have hterm : T.ritem[item + iv.remaining.length]? = some (-iv.rule) := by
    rw [hitem, Nat.add_assoc, hget, List.append_assoc,
      List.getElem?_append_right (by omega), Nat.add_sub_cancel_left,
      List.getElem?_append_right (le_refl _), Nat.sub_self, List.getElem?_cons_zero]
  rw [hterm]
  simp only [neg_neg]
  have hsub : item - T.rrhs iv.rule = iv.consumed.length := by omega
  rw [hsub, print_core_consumed_run T iv.consumed (T.rrhs iv.rule) (fun k hk => by
    rw [hget, List.append_assoc, List.getElem?_append_left hk, List.get?_eq_getElem?])]
  simp only
  have hsp : (if T.rrhs iv.rule < item then item else T.rrhs iv.rule) = item := by
    split <;> omega
  rw [hsp, hdrop, print_core_remaining_run T _ _ _ hm hneg]
  have hnum : -2 - -iv.rule = iv.rule - 2 := by omega
  simp only [Option.map_some', hnum, List.append_assoc]

/-- null_insert through the entries below i and the others -/
theorem null_insert_split (i : Int) (L : List Int) :
    null_insert i L =
      L.takeWhile (fun x => decide (x < i))
        ++ (match L.dropWhile (fun x => decide (x < i)) with
            | [] => [i]
            | x :: r => if x = i then x :: r else i :: x :: r) := by
  induction L with
  | nil => rfl
  | cons x r ih =>
    simp only [null_insert]
    by_cases h : x < i
    · simp only [if_pos h, ih, List.takeWhile_cons, List.dropWhile_cons, decide_eq_true h,
        if_true, List.cons_append]
    · simp only [if_neg h, List.takeWhile_cons, List.dropWhile_cons, decide_eq_false h,
        List.nil_append]
      rfl

theorem print_nulls_find_spec (arr : List Int) (i : Int) (L R : List Int) (P : List Int)
    (harr : arr = P ++ L ++ R) :
    print_nulls_find arr i L.length P.length =
      some (P.length + (L.takeWhile (fun x => decide (x < i))).length) := by
  induction L generalizing P with
  | nil => simp [print_nulls_find]
  | cons x r ih =>
    simp only [List.length_cons, print_nulls_find]
    have hx : arr[P.length]? = some x := by
      rw [harr, List.append_assoc, List.getElem?_append_right (le_refl _), Nat.sub_self,
        List.cons_append, List.getElem?_cons_zero]
    rw [hx]
    simp only
    by_cases h : i > x
    · rw [if_pos h]
      have := ih (P ++ [x]) (by rw [harr]; simp)
      simp only [List.length_append, List.length_singleton] at this
      rw [this]
      have hd : decide (x < i) = true := decide_eq_true h
      simp only [List.takeWhile_cons, hd, if_true, List.length_cons]
      congr 1
      omega
    · rw [if_neg h]
      have hd : decide (x < i) = false := decide_eq_false (by omega)
      simp [List.takeWhile_cons, hd]

theorem print_nulls_shift_spec (j : Nat) (k : Nat) (arr : List Int) (hjk : j ≤ k) (hk : k < arr.length) :
    ∃ arr', print_nulls_shift j k arr = some arr' ∧ arr'.length = arr.length
      ∧ ∀ m, arr'[m]? = if j < m ∧ m ≤ k then arr[m - 1]? else arr[m]? := by
  induction k generalizing arr with
  | zero =>
    refine ⟨arr, rfl, rfl, fun m => ?_⟩
    rw [if_neg (by omega)]
  | succ k ih =>
    simp only [print_nulls_shift]
    by_cases hj : k + 1 > j
    · rw [if_pos hj]
      have hkl : k < arr.length := by omega
      rw [List.getElem?_eq_getElem hkl]
      simp only [null_rules_write, if_pos hk]
      obtain ⟨arr', h1, h2, h3⟩ := ih (arr.set (k + 1) arr[k]) (by omega)
        (by rw [List.length_set]; omega)
      refine ⟨arr', h1, by rw [h2, List.length_set], fun m => ?_⟩
      rw [h3 m]
      by_cases hm : j < m ∧ m ≤ k
      · rw [if_pos hm, if_pos (by omega), List.getElem?_set, if_neg (by omega)]
      · rw [if_neg hm]
        by_cases hm2 : m = k + 1
        · subst hm2
          rw [if_pos (by omega), List.getElem?_set, if_pos rfl, if_pos hk]
          simp [List.getElem?_eq_getElem hkl]
        · rw [if_neg (by omega), List.getElem?_set, if_neg (by omega)]
    · rw [if_neg hj]
      refine ⟨arr, rfl, rfl, fun m => ?_⟩
      rw [if_neg (by omega)]

theorem print_nulls_shift_fail (j : Nat) (arr : List Int) (hj : j < arr.length) :
    print_nulls_shift j arr.length arr = none := by
  cases h : arr.length with
  | zero => omega
  | succ k =>
    simp only [print_nulls_shift]
    rw [if_pos (by omega), List.getElem?_eq_getElem (by omega)]
    simp [null_rules_write, h]

/-- the insertion, with the array split into its first nnulls entries and the others -/
theorem print_nulls_insert_parts (tw dw R : List Int) (i : Int)
    (hfind : print_nulls_find (tw ++ dw ++ R) i (tw ++ dw).length 0 = some tw.length) :
    print_nulls_insert (tw ++ dw ++ R) (tw ++ dw).length i =
      match dw with
      | [] =>
        (match R with
          | [] => none
          | _ :: R2 => some (tw ++ [i] ++ R2, tw.length + 1))
      | x :: r =>
        if x = i then some (tw ++ x :: r ++ R, (tw ++ x :: r).length)
        else
          (match R with
            | [] => none
            | _ :: R2 => some (tw ++ i :: x :: r ++ R2, (tw ++ x :: r).length + 1)) := by
  unfold print_nulls_insert
  rw [hfind]
  simp only
  cases dw with
  | nil =>
    simp only [List.append_nil, if_true]
    cases R with
    | nil => simp [null_rules_write]
    | cons y R2 =>
      simp only [null_rules_write, List.length_append, List.length_cons]
      rw [if_pos (by omega), List.set_append_right _ _ (le_refl _)]
      simp
  | cons x r =>
    have hne : ¬ tw.length = (tw ++ x :: r).length := by simp
    rw [if_neg hne]
    have hx : (tw ++ x :: r ++ R)[tw.length]? = some x := by
      rw [List.append_assoc, List.getElem?_append_right (le_refl _), Nat.sub_self,
        List.cons_append, List.getElem?_cons_zero]
    rw [hx]
    simp only
    by_cases hxi : x = i
    · have : ¬ i ≠ x := by simpa using hxi.symm
      rw [if_neg this, if_pos hxi]
    · have : i ≠ x := fun h => hxi h.symm
      rw [if_pos this, if_neg hxi]
      cases R with
      | nil =>
        have := print_nulls_shift_fail tw.length (tw ++ x :: r ++ []) (by simp)
        simp only [List.append_nil] at this ⊢
        rw [this]
      | cons y R2 =>
        obtain ⟨arr1, h1, h2, h3⟩ := print_nulls_shift_spec tw.length (tw ++ x :: r).length
          (tw ++ x :: r ++ y :: R2) (by simp) (by simp)
        rw [h1]
        simp only [null_rules_write]
        rw [if_pos (by rw [h2]; simp)]
        simp only [Option.map_some', Option.some.injEq, Prod.mk.injEq, and_true]
        apply List.ext_getElem?
        intro m
        rw [List.getElem?_set, h2]
        by_cases hm : tw.length = m
        · subst hm
          rw [if_pos rfl, if_pos (by simp), List.append_assoc,
            List.getElem?_append_right (le_refl _), Nat.sub_self, List.cons_append,
            List.getElem?_cons_zero]
        · rw [if_neg hm, h3 m]
          simp only [List.getElem?_append, List.getElem?_cons, List.length_append,
            List.length_cons]
          split_ifs <;> first | omega | rfl | (congr 1; omega)

theorem print_nulls_insert_spec (L R : List Int) (i : Int) :
    print_nulls_insert (L ++ R) L.length i =
      if (null_insert i L).length ≤ (L ++ R).length then
        some (null_insert i L ++ R.drop ((null_insert i L).length - L.length),
          (null_insert i L).length)
      else none := by
  have hfind := print_nulls_find_spec (L ++ R) i L R [] (by simp)
  simp only [List.length_nil, Nat.zero_add] at hfind
  have hsplit := null_insert_split i L
  have hL := List.takeWhile_append_dropWhile (fun x => decide (x < i)) L
  generalize L.takeWhile (fun x => decide (x < i)) = tw at hfind hsplit hL
  generalize L.dropWhile (fun x => decide (x < i)) = dw at hsplit hL
  subst hL
  rw [print_nulls_insert_parts tw dw R i hfind, hsplit]
  cases dw with
  | nil =>
    cases R with
    | nil => simp
    | cons y R2 => simp
  | cons x r =>
    by_cases hxi : x = i
    · simp [hxi]
    · cases R with
      | nil => simp [hxi]
      | cons y R2 =>
        simp only [hxi, if_false, List.length_append, List.length_cons, List.append_assoc,
          List.cons_append]
        have e : tw.length + (r.length + 1 + 1) - (tw.length + (r.length + 1)) = 1 := by omega
        rw [if_pos (by omega), e]
        simp only [List.drop_succ_cons, List.drop_zero]
        rfl

theorem null_insert_length_le (i : Int) (L : List Int) :
    L.length ≤ (null_insert i L).length := by
  induction L with
  | nil => simp [null_insert]
  | cons x r ih =>
    simp only [null_insert]
    split
    · simp only [List.length_cons]; omega
    · split <;> simp

theorem null_list_length_le (D : Defs) (T : Tables) (l : List action) (L : List Int) :
    L.length ≤ (null_list D T l L).length := by
  induction l generalizing L with
  | nil => exact le_refl _
  | cons p rest ih =>
    simp only [null_list]
    split
    · exact le_trans (null_insert_length_le _ _) (ih _)
    · exact ih _

theorem print_nulls_scan_spec (D : Defs) (T : Tables) (l : List action) (L R : List Int) :
    (null_list D T l L).length ≤ (L ++ R).length →
      print_nulls_scan D T l (L ++ R) L.length =
        some (null_list D T l L ++ R.drop ((null_list D T l L).length - L.length),
          (null_list D T l L).length) := by
  induction l generalizing L R with
  | nil => intro _; simp [print_nulls_scan, null_list]
  | cons p rest ih =>
    intro hlen
    simp only [print_nulls_scan, null_list] at hlen ⊢
    by_cases hp : null_action D T p
    · simp only [if_pos hp] at hlen ⊢
      have h1 : (null_insert p.number L).length ≤ (L ++ R).length :=
        le_trans (null_list_length_le D T rest _) hlen
      rw [print_nulls_insert_spec, if_pos h1]
      simp only
      have h2 := null_insert_length_le p.number L
      rw [ih (null_insert p.number L) _ (by
        simp only [List.length_append, List.length_drop] at hlen h1 ⊢; omega)]
      have h3 := null_list_length_le D T rest (null_insert p.number L)
      simp only [List.drop_drop, Option.some.injEq, Prod.mk.injEq, and_true,
        List.append_cancel_left_eq]
      congr 1
      omega
    · simp only [if_neg hp] at hlen ⊢
      exact ih L R hlen

theorem print_nulls_scan_fail (D : Defs) (T : Tables) (l : List action) (L R : List Int) :
    ¬ (null_list D T l L).length ≤ (L ++ R).length →
      print_nulls_scan D T l (L ++ R) L.length = none := by
  induction l generalizing L R with
  | nil => intro h; simp [null_list] at h
  | cons p rest ih =>
    intro hlen
    simp only [print_nulls_scan, null_list] at hlen ⊢
    by_cases hp : null_action D T p
    · simp only [if_pos hp] at hlen ⊢
      rw [print_nulls_insert_spec]
      by_cases h1 : (null_insert p.number L).length ≤ (L ++ R).length
      · rw [if_pos h1]
        simp only
        have h2 := null_insert_length_le p.number L
        exact ih (null_insert p.number L) _ (by
          simp only [List.length_append, List.length_drop] at hlen h1 ⊢; omega)
      · rw [if_neg h1]
    · simp only [if_neg hp] at hlen ⊢
      exact ih L R hlen

theorem print_nulls_lines_spec (T : Tables) (P L R : List Int) :
    print_nulls_lines T (P ++ L ++ R) L.length P.length =
      some (L.map (fun r => Out.null_rule (T.symbol_name (T.rlhs r)) (r - 2))) := by
  induction L generalizing P with
  | nil => rfl
  | cons x r ih =>
    simp only [List.length_cons, print_nulls_lines]
    have hx : (P ++ x :: r ++ R)[P.length]? = some x := by
      rw [List.append_assoc, List.getElem?_append_right (le_refl _), Nat.sub_self,
        List.cons_append, List.getElem?_cons_zero]
    rw [hx]
    simp only
    have := ih (P ++ [x])
    simp only [List.length_append, List.length_singleton, List.append_assoc,
      List.singleton_append] at this
    simp only [List.append_assoc, List.cons_append] at this ⊢
    rw [this]
    rfl

/-- print_nulls on an array of the given length -/
theorem print_nulls_list_spec (D : Defs) (T : Tables) (l : List action) (arr : List Int) :
    print_nulls_list D T l arr =
      if (null_list D T l []).length ≤ arr.length then
        some ((null_list D T l []).map
            (fun r => Out.null_rule (T.symbol_name (T.rlhs r)) (r - 2)) ++ [Out.newline],
          null_list D T l [] ++ arr.drop (null_list D T l []).length)
      else none := by
  unfold print_nulls_list
  have h1 := print_nulls_scan_spec D T l [] arr
  have h2 := print_nulls_scan_fail D T l [] arr
  simp only [List.nil_append, List.length_nil, Nat.sub_zero] at h1 h2
  by_cases h : (null_list D T l []).length ≤ arr.length
  · rw [h1 h, if_pos h]
    simp only
    have := print_nulls_lines_spec T [] (null_list D T l []) (arr.drop (null_list D T l []).length)
    simp only [List.nil_append, List.length_nil] at this
    rw [this]
    rfl
  · rw [h2 h, if_neg h]

theorem mem_null_insert (i r : Int) (L : List Int) :
    r ∈ null_insert i L ↔ r = i ∨ r ∈ L := by
  induction L with
  | nil => simp [null_insert]
  | cons x rest ih =>
    simp only [null_insert]
    split
    · simp only [List.mem_cons, ih]; tauto
    · split
      · rename_i h; subst h; simp only [List.mem_cons]; tauto
      · simp only [List.mem_cons]

theorem sorted_null_insert (i : Int) (L : List Int) (h : L.Sorted (· < ·)) :
    (null_insert i L).Sorted (· < ·) := by
  induction L with
  | nil => simp [null_insert]
  | cons x rest ih =>
    have hx := List.sorted_cons.mp h
    simp only [null_insert]
    split
    · rename_i hxi
      refine List.sorted_cons.mpr ⟨fun b hb => ?_, ih hx.2⟩
      rcases (mem_null_insert i b rest).mp hb with rfl | hb
      · exact hxi
      · exact hx.1 b hb
    · split
      · exact h
      · rename_i h1 h2
        refine List.sorted_cons.mpr ⟨fun b hb => ?_, h⟩
        rcases List.mem_cons.mp hb with rfl | hb
        · omega
        · have := hx.1 b hb; omega

theorem mem_null_list (D : Defs) (T : Tables) (l : List action) (L : List Int) (r : Int) :
    r ∈ null_list D T l L ↔ r ∈ L ∨ ∃ a ∈ l, null_action D T a ∧ a.number = r := by
  induction l generalizing L with
  | nil => simp [null_list]
  | cons p rest ih =>
    simp only [null_list]
    split
    · rename_i hp
      rw [ih, mem_null_insert]
      constructor
      · rintro ((rfl | h) | ⟨a, ha, h⟩)
        · exact Or.inr ⟨p, List.mem_cons_self _ _, hp, rfl⟩
        · exact Or.inl h
        · exact Or.inr ⟨a, List.mem_cons_of_mem _ ha, h⟩
      · rintro (h | ⟨a, ha, h1, h2⟩)
        · exact Or.inl (Or.inr h)
        · rcases List.mem_cons.mp ha with rfl | ha
          · exact Or.inl (Or.inl h2.symm)
          · exact Or.inr ⟨a, ha, h1, h2⟩
    · rename_i hp
      rw [ih]
      constructor
      · rintro (h | ⟨a, ha, h⟩)
        · exact Or.inl h
        · exact Or.inr ⟨a, List.mem_cons_of_mem _ ha, h⟩
      · rintro (h | ⟨a, ha, h1, h2⟩)
        · exact Or.inl h
        · rcases List.mem_cons.mp ha with rfl | ha
          · exact absurd h1 hp
          · exact Or.inr ⟨a, ha, h1, h2⟩

theorem sorted_null_list (D : Defs) (T : Tables) (l : List action) (L : List Int)
    (h : L.Sorted (· < ·)) : (null_list D T l L).Sorted (· < ·) := by
  induction l generalizing L with
  | nil => exact h
  | cons p rest ih =>
    simp only [null_list]
    split
    · exact ih _ (sorted_null_insert _ _ h)
    · exact ih _ h

theorem null_list_length (D : Defs) (T : Tables) (l : List action) :
    (null_list D T l []).length = null_count D T l := by
  unfold null_count
  apply List.Perm.length_eq
  apply (List.perm_ext_iff_of_nodup (sorted_null_list D T l [] (by simp)).nodup
    (List.nodup_dedup _)).mpr
  intro r
  rw [mem_null_list, List.mem_dedup, List.mem_map]
  simp only [List.not_mem_nil, false_or, List.mem_filter, decide_eq_true_eq]
  constructor
  · rintro ⟨a, ha, h1, h2⟩; exact ⟨a, ⟨ha, h1⟩, h2⟩
  · rintro ⟨a, ⟨ha, h1⟩, h2⟩; exact ⟨a, ha, h1, h2⟩

theorem null_count_append_le (D : Defs) (T : Tables) (pre post : List action) :
    null_count D T pre ≤ null_count D T (pre ++ post) := by
  unfold null_count
  apply List.Subperm.length_le
  apply List.subperm_of_subset (List.nodup_dedup _)
  intro r hr
  rw [List.mem_dedup, List.mem_map] at hr ⊢
  obtain ⟨a, ha, h⟩ := hr
  rw [List.mem_filter] at ha
  exact ⟨a, List.mem_filter.mpr ⟨List.mem_append_left _ ha.1, ha.2⟩, h⟩

theorem null_count_le (D : Defs) (T : Tables) (l : List action)
    (hrules : ∀ a ∈ l, null_action D T a → 0 ≤ a.number ∧ a.number < T.nrules) :
    null_count D T l ≤ T.nrules := by
  unfold null_count
  have hsub : List.Subperm
      (((l.filter (fun a => decide (null_action D T a))).map (fun a => a.number)).dedup)
      ((List.range T.nrules).map (fun n : Nat => (n : Int))) := by
    apply List.subperm_of_subset (List.nodup_dedup _)
    intro r hr
    rw [List.mem_dedup, List.mem_map] at hr
    obtain ⟨a, ha, h⟩ := hr
    rw [List.mem_filter] at ha
    have := hrules a ha.1 (by simpa using ha.2)
    rw [List.mem_map]
    refine ⟨r.toNat, List.mem_range.mpr (by omega), by omega⟩
  have := hsub.length_le
  simpa using this

theorem print_nulls_scan_part (D : Defs) (T : Tables) (pre : List action) (arr : List Int)
    (h : null_count D T pre ≤ arr.length) :
    print_nulls_scan D T pre arr 0 =
      some (null_list D T pre [] ++ arr.drop (null_count D T pre), null_count D T pre) := by
  have h1 := print_nulls_scan_spec D T pre [] arr
  simp only [List.nil_append, List.length_nil, Nat.sub_zero, null_list_length] at h1
  exact h1 h

theorem print_nulls_list_same (D : Defs) (T : Tables) (l : List action) (a1 a2 : List Int)
    (h : a1.length = a2.length) :
    (print_nulls_list D T l a1).map (fun r => (r.1, r.2.length)) =
      (print_nulls_list D T l a2).map (fun r => (r.1, r.2.length)) := by
  rw [print_nulls_list_spec, print_nulls_list_spec, h]
  by_cases hL : (null_list D T l []).length ≤ a2.length
  · simp only [if_pos hL, Option.map_some', List.length_append, List.length_drop, h]
  · simp only [if_neg hL, Option.map_none']

theorem print_state_same (D : Defs) (T : Tables) (state : Int) (a1 a2 : List Int)
    (h : a1.length = a2.length) :
    (print_state D T state a1).map (fun r => (r.1, r.2.length)) =
      (print_state D T state a2).map (fun r => (r.1, r.2.length)) := by
  unfold print_state
  cases print_core T state with
  | none => rfl
  | some c =>
    simp only
    have hn := print_nulls_list_same D T (T.parser state) a1 a2 h
    unfold print_nulls
    cases h1 : print_nulls_list D T (T.parser state) a1 with
    | none =>
      cases h2 : print_nulls_list D T (T.parser state) a2 with
      | none => rfl
      | some r2 => rw [h1, h2] at hn; simp at hn
    | some r1 =>
      cases h2 : print_nulls_list D T (T.parser state) a2 with
      | none => rw [h1, h2] at hn; simp at hn
      | some r2 =>
        rw [h1, h2] at hn
        simp only [Option.map_some', Option.some.injEq, Prod.mk.injEq] at hn ⊢
        rw [hn.1, hn.2]
        exact ⟨rfl, rfl⟩

theorem verbose_states_same (D : Defs) (T : Tables) (n i : Nat) (a1 a2 : List Int)
    (h : a1.length = a2.length) :
    (verbose_states D T n i a1).map (fun r => (r.1, r.2.length)) =
      (verbose_states D T n i a2).map (fun r => (r.1, r.2.length)) := by
  induction n generalizing i a1 a2 with
  | zero => simp [verbose_states, h]
  | succ n ih =>
    simp only [verbose_states]
    have hs := print_state_same D T i a1 a2 h
    cases h1 : print_state D T i a1 with
    | none =>
      cases h2 : print_state D T i a2 with
      | none => rfl
      | some r2 => rw [h1, h2] at hs; simp at hs
    | some r1 =>
      cases h2 : print_state D T i a2 with
      | none => rw [h1, h2] at hs; simp at hs
      | some r2 =>
        rw [h1, h2] at hs
        simp only [Option.map_some', Option.some.injEq, Prod.mk.injEq] at hs
        simp only
        have hrec := ih (i + 1) r1.2 r2.2 hs.2
        cases h3 : verbose_states D T n (i + 1) r1.2 with
        | none =>
          cases h4 : verbose_states D T n (i + 1) r2.2 with
          | none => rfl
          | some q2 => rw [h3, h4] at hrec; simp at hrec
        | some q1 =>
          cases h4 : verbose_states D T n (i + 1) r2.2 with
          | none => rw [h3, h4] at hrec; simp at hrec
          | some q2 =>
            rw [h3, h4] at hrec
            simp only [Option.map_some', Option.some.injEq, Prod.mk.injEq] at hrec ⊢
            rw [hs.1, hrec.1, hrec.2]
            exact ⟨rfl, rfl⟩

theorem verbose_same (D : Defs) (T : Tables) (a1 a2 : List Int) (h : a1.length = a2.length) :
    verbose D T a1 = verbose D T a2 := by
  unfold verbose
  by_cases hv : T.vflag = 0
  · rw [if_pos hv, if_pos hv]
  · rw [if_neg hv, if_neg hv]
    have hs := verbose_states_same D T T.nstates 0 a1 a2 h
    cases h1 : verbose_states D T T.nstates 0 a1 with
    | none =>
      cases h2 : verbose_states D T T.nstates 0 a2 with
      | none => rfl
      | some r2 => rw [h1, h2] at hs; simp at hs
    | some r1 =>
      cases h2 : verbose_states D T T.nstates 0 a2 with
      | none => rw [h1, h2] at hs; simp at hs
      | some r2 =>
        rw [h1, h2] at hs
        simp only [Option.map_some', Option.some.injEq, Prod.mk.injEq] at hs
        simp only [hs.1]

theorem print_core_some (T : Tables) (state : Int) (views : List item_view)
    (hwf : List.Forall₂ (item_wf T) (T.state_table state).items views) :
    print_core T state =
      some (views.flatMap (fun iv =>
        [Out.core_lhs (T.symbol_name (T.rlhs iv.rule))]
          ++ iv.consumed.map (fun v => Out.core_consumed (T.symbol_name v))
          ++ [Out.dot]
          ++ iv.remaining.map (fun v => Out.rhs_symbol (T.symbol_name v))
          ++ [Out.rule_number (iv.rule - 2)])) := by
  unfold print_core
  generalize (T.state_table state).items = items at hwf
  induction hwf with
  | nil => rfl
  | cons h _ ih =>
    simp only [print_core_items, print_core_item_eq T _ _ h, ih, List.flatMap_cons,
      Option.map_some']

theorem print_state_some (D : Defs) (T : Tables) (state : Int) (arr : List Int)
    (hcore : ∃ views, List.Forall₂ (item_wf T) (T.state_table state).items views)
    (hnull : ∀ a ∈ T.parser state, null_action D T a → 0 ≤ a.number ∧ a.number < T.nrules)
    (hlen : arr.length = T.nrules) :
    ∃ r, print_state D T state arr = some r ∧ r.2.length = T.nrules := by
  obtain ⟨views, hv⟩ := hcore
  unfold print_state
  rw [print_core_some T state views hv]
  simp only
  unfold print_nulls
  have hL : (null_list D T (T.parser state) []).length ≤ arr.length := by
    rw [null_list_length, hlen]; exact null_count_le D T _ hnull
  rw [print_nulls_list_spec, if_pos hL]
  refine ⟨_, rfl, ?_⟩
  simp only [List.length_append, List.length_drop]
  omega

theorem verbose_states_some (D : Defs) (T : Tables) (n i : Nat) (arr : List Int)
    (hcore : ∀ s : Nat, i ≤ s → s < i + n →
      ∃ views, List.Forall₂ (item_wf T) (T.state_table s).items views)
    (hnull : ∀ s : Nat, i ≤ s → s < i + n →
      ∀ a ∈ T.parser s, null_action D T a → 0 ≤ a.number ∧ a.number < T.nrules)
    (hlen : arr.length = T.nrules) :
    ∃ r, verbose_states D T n i arr = some r := by
  induction n generalizing i arr with
  | zero => exact ⟨_, rfl⟩
  | succ n ih =>
    simp only [verbose_states]
    obtain ⟨r, hr, hr2⟩ := print_state_some D T i arr (hcore i (le_refl _) (by omega))
      (hnull i (le_refl _) (by omega)) hlen
    rw [hr]
    simp only
    obtain ⟨q, hq⟩ := ih (i + 1) r.2 (fun s h1 h2 => hcore s (by omega) (by omega))
      (fun s h1 h2 => hnull s (by omega) (by omega)) hr2
    rw [hq]
    exact ⟨_, rfl⟩

theorem log_unused_some (T : Tables)
    (hterm : ∀ i : Nat, 3 ≤ i → i < T.nrules → T.rules_used i = 0 →
      ∃ x ∈ T.ritem.drop (T.rrhs i), x < 0) :
    ∃ o, log_unused T = some o := by
  unfold log_unused
  rw [log_unused_loop_eq T _ 3 (fun k h1 h2 => hterm k h1 (by omega))]
  exact ⟨_, rfl⟩

theorem verbose_some (D : Defs) (T : Tables) (arr : List Int)
    (hcore : ∀ s : Nat, s < T.nstates →
      ∃ views, List.Forall₂ (item_wf T) (T.state_table s).items views)
    (hnull : ∀ s : Nat, s < T.nstates →
      ∀ a ∈ T.parser s, null_action D T a → 0 ≤ a.number ∧ a.number < T.nrules)
    (hterm : ∀ i : Nat, 3 ≤ i → i < T.nrules → T.rules_used i = 0 →
      ∃ x ∈ T.ritem.drop (T.rrhs i), x < 0)
    (hlen : arr.length = T.nrules) :
    ∃ o, verbose D T arr = some o := by
  unfold verbose
  by_cases hv : T.vflag = 0
  · rw [if_pos hv]; exact ⟨_, rfl⟩
  · rw [if_neg hv]
    obtain ⟨r, hr⟩ := verbose_states_some D T T.nstates 0 arr
      (fun s _ h2 => hcore s (by omega)) (fun s _ h2 => hnull s (by omega)) hlen
    rw [hr]
    simp only
    by_cases hu : T.nunused ≠ 0
    · rw [if_pos hu]
      obtain ⟨o, ho⟩ := log_unused_some T hterm
      rw [ho]
      exact ⟨_, rfl⟩
    · rw [if_neg hu]
      exact ⟨_, rfl⟩

theorem strrchr_none (c : Char) (s : List Char) (h : c ∉ s) : strrchr c s = none := by
  induction s with
  | nil => rfl
  | cons x rest ih =>
    have h1 : c ∉ rest := fun hc => h (List.mem_cons_of_mem _ hc)
    have h2 : ¬ x = c := fun hc => h (by rw [hc]; exact List.mem_cons_self _ _)
    simp only [strrchr, ih h1, if_neg h2]

theorem strrchr_last (c : Char) (stem ext : List Char) (h : c ∉ ext) :
    strrchr c (stem ++ c :: ext) = some stem.length := by
  induction stem with
  | nil => simp only [List.nil_append, strrchr, strrchr_none c ext h, if_true, List.length_nil]
  | cons x rest ih =>
    rw [List.cons_append]
    simp only [strrchr, ih, List.length_cons]

theorem cstring_stem (stem rest : List Char) (h : '\x00' ∉ stem) :
    cstring (stem ++ '\x00' :: rest) = stem := by
  unfold cstring
  induction stem with
  | nil => simp [List.takeWhile_cons]
  | cons x r ih =>
    have h1 : '\x00' ∉ r := fun hc => h (List.mem_cons_of_mem _ hc)
    have h2 : x ≠ '\x00' := fun hc => h (by rw [hc]; exact List.mem_cons_self _ _)
    rw [List.cons_append, List.takeWhile_cons]
    simp only [h2, ne_eq, not_false_eq_true, decide_True, if_true, ih h1]

theorem create_defines_name_known (progname stem : List Char) (e : Char) (ext : List Char)
    (dflag : Int) (hdot : '.' ∉ e :: ext) (hnul : '\x00' ∉ stem)
    (hk : known_suffix ('.' :: e :: ext) = true) :
    create_defines_name progname (stem ++ '.' :: e :: ext) dflag =
      some (dflag, some (stem ++ ['.', 'h']), []) := by
  unfold create_defines_name
  rw [strrchr_last '.' stem (e :: ext) hdot]
  simp only [List.drop_left, hk, if_true]
  have h1 : strncpy (strdup (stem ++ '.' :: e :: ext)) (stem ++ '.' :: e :: ext)
      (stem.length + 1) = some (stem ++ '.' :: e :: (ext ++ ['\x00'])) := by
    unfold strncpy strdup
    rw [if_pos (by simp)]
    have e1 : stem.length + 1 - (stem ++ '.' :: e :: ext).length = 0 := by simp
    rw [e1]
    simp only [List.replicate_zero, List.append_nil]
    have e2 : stem ++ '.' :: e :: ext = (stem ++ ['.']) ++ e :: ext := by simp
    have e3 : stem.length + 1 = (stem ++ ['.']).length := by simp
    rw [e2, e3, List.take_left, List.append_assoc ((stem ++ ['.'])) (e :: ext) ['\x00'],
      List.drop_left]
    simp
  rw [h1]
  simp only
  have h2 : store (stem ++ '.' :: e :: (ext ++ ['\x00'])) (stem.length + 1) 'h' =
      some (stem ++ '.' :: 'h' :: (ext ++ ['\x00'])) := by
    unfold store
    rw [if_pos (by simp)]
    have e2 : stem ++ '.' :: e :: (ext ++ ['\x00']) = (stem ++ ['.']) ++ e :: (ext ++ ['\x00']) := by
      simp
    have e3 : stem.length + 1 = (stem ++ ['.']).length := by simp
    rw [e2, e3, List.set_append_right _ _ (le_refl _), Nat.sub_self]
    simp
  rw [h2]
  simp only
  have h3 : store (stem ++ '.' :: 'h' :: (ext ++ ['\x00'])) (stem.length + 2) '\x00' =
      some (stem ++ '.' :: 'h' :: '\x00' :: (ext ++ ['\x00']).tail) := by
    unfold store
    rw [if_pos (by simp)]
    have e2 : stem ++ '.' :: 'h' :: (ext ++ ['\x00']) =
        (stem ++ ['.', 'h']) ++ (ext ++ ['\x00']) := by simp
    have e3 : stem.length + 2 = (stem ++ ['.', 'h']).length := by simp
    rw [e2, e3, List.set_append_right _ _ (le_refl _), Nat.sub_self]
    cases ext <;> simp
  rw [h3]
  simp only
  have e4 : stem ++ '.' :: 'h' :: '\x00' :: (ext ++ ['\x00']).tail =
      (stem ++ ['.', 'h']) ++ '\x00' :: (ext ++ ['\x00']).tail := by simp
  rw [e4, cstring_stem _ _ (by
    intro hc
    rcases List.mem_append.mp hc with hc | hc
    · exact hnul hc
    · simp at hc)]

theorem create_defines_name_unknown (progname name : List Char) (dflag : Int)
    (h : '.' ∉ name ∨ ∃ stem ext, name = stem ++ '.' :: ext ∧ '.' ∉ ext
      ∧ known_suffix ('.' :: ext) = false) :
    create_defines_name progname name dflag =
      some (0, none,
        [progname ++ ": suffix of output file name ".toList ++ name
          ++ " not recognized, no -d file generated.\n".toList]) := by
  unfold create_defines_name
  rcases h with h | ⟨stem, ext, hn, hdot, hk⟩
  · rw [strrchr_none '.' name h]
  · subst hn
    rw [strrchr_last '.' stem ext hdot]
    simp only [List.drop_left, hk]
    rfl

theorem known_suffix_iff (s : List Char) :
    known_suffix s = true ↔
      s ∈ [".c".toList, ".C".toList, ".cc".toList, ".cxx".toList, ".cpp".toList] := by
  simp only [known_suffix, Bool.or_eq_true, beq_iff_eq, List.mem_cons, List.mem_singleton,
    List.not_mem_nil, or_false, or_assoc]

theorem print_conflicts_step_conflict (D : Defs) (T : Tables) (state : Int) (v : conflict_vars)
    (a : action) (h1 : a.suppressed = 1) (hs : a.symbol = v.symbol) :
    print_conflicts_step D T state v a =
      (v, [if state = T.final_state ∧ v.symbol = 0 then
              Out.conflict_accept state (a.number - 2)
            else if v.act = D.SHIFT then
              Out.conflict_sr state v.number (a.number - 2) (T.symbol_name v.symbol)
            else
              Out.conflict_rr state (v.number - 2) (a.number - 2) (T.symbol_name v.symbol)]) := by
  unfold print_conflicts_step
  rw [if_neg (by omega), if_neg (by intro h; exact h hs), if_pos h1]
  by_cases hf : state = T.final_state ∧ v.symbol = 0
  · rw [if_pos hf, if_pos hf]
  · rw [if_neg hf, if_neg hf]
    by_cases hc : v.act = D.SHIFT
    · rw [if_pos hc, if_pos hc]
    · rw [if_neg hc, if_neg hc]

theorem print_conflicts_vars_recorded (D : Defs) (T : Tables) (state : Int)
    (l1 : List action) (w : action) (l2 : List action)
    (hw : w.suppressed ≠ 2) (hrec : last_symbol l1 ≠ w.symbol)
    (hl2 : ∀ x ∈ l2, x.suppressed ≠ 2 → x.symbol = w.symbol) :
    print_conflicts_vars D T state (conflict_init D) (l1 ++ w :: l2) =
      { symbol := w.symbol, number := w.number,
        act := if w.action_code = D.SHIFT then D.SHIFT else D.REDUCE } := by
  rw [print_conflicts_vars_append]
  simp only [print_conflicts_vars]
  have hstep : (print_conflicts_step D T state
      (print_conflicts_vars D T state (conflict_init D) l1) w).1 =
      { symbol := w.symbol, number := w.number,
        act := if w.action_code = D.SHIFT then D.SHIFT else D.REDUCE } := by
    unfold print_conflicts_step
    rw [if_neg hw, if_pos (by rw [print_conflicts_vars_symbol]; exact fun h => hrec h.symm)]
  rw [hstep]
  exact print_conflicts_vars_same D T state _ l2 hl2

theorem print_conflicts_list_conflict (D : Defs) (T : Tables) (state : Int)
    (pre : List action) (a : action) (post : List action)
    (h1 : a.suppressed = 1)
    (hs : a.symbol = (print_conflicts_vars D T state (conflict_init D) pre).symbol) :
    print_conflicts_list D T state (pre ++ a :: post) =
      print_conflicts_list D T state pre
        ++ (print_conflicts_step D T state
              (print_conflicts_vars D T state (conflict_init D) pre) a).2
        ++ print_conflicts_loop D T state
              (print_conflicts_vars D T state (conflict_init D) pre) post := by
  unfold print_conflicts_list
  rw [print_conflicts_loop_append, List.append_assoc]
  congr 1
  simp only [print_conflicts_loop]
  rw [print_conflicts_step_conflict D T state _ a h1 hs]

theorem print_reductions_eq (D : Defs) (T : Tables) (p : List action) (d : Int) :
    print_reductions D T p d =
        (p.filter (fun a => a.action_code = D.REDUCE ∧ a.suppressed = 0 ∧ a.number ≠ d)).map
          (fun a => Out.reduce (T.symbol_name a.symbol) (a.number - 2))
        ++ (if ∃ q ∈ p, q.action_code = D.REDUCE ∧ q.suppressed < 2 then
              (if d > 0 then [Out.default_reduce (d - 2)] else [])
            else [Out.error]) := by
  unfold print_reductions
  by_cases h : ∃ q ∈ p, q.action_code = D.REDUCE ∧ q.suppressed < 2
  · have h' := (print_reductions_any_ne_zero_iff D p).mpr h
    rw [if_neg h', if_pos h, print_reductions_loop_eq_filter]
  · have h' : print_reductions_any D p = 0 := by
      by_contra hc; exact h ((print_reductions_any_ne_zero_iff D p).mp hc)
    rw [if_pos h', if_neg h]
    have : p.filter (fun a => a.action_code = D.REDUCE ∧ a.suppressed = 0 ∧ a.number ≠ d) = [] := by
      rw [List.filter_eq_nil_iff]
      intro a ha hc
      simp only [decide_eq_true_eq] at hc
      exact h ⟨a, ha, hc.1, by omega⟩
    rw [this]; rfl

theorem pairwise_getLast {α : Type} (R : α → α → Prop) (l : List α) (h : l.Pairwise R)
    (k : α) (hk : k ∈ l) (last : α) (hl : l.getLast? = some last) : k = last ∨ R k last := by
  induction l with
  | nil => simp at hk
  | cons a rest ih =>
    have hp := List.pairwise_cons.mp h
    cases rest with
    | nil =>
      simp only [List.getLast?_singleton, Option.some.injEq] at hl
      simp only [List.mem_singleton] at hk
      exact Or.inl (hk.trans hl)
    | cons b rest2 =>
      have hl2 : (b :: rest2).getLast? = some last := by
        rw [List.getLast?_cons_cons] at hl; exact hl
      rcases List.mem_cons.mp hk with rfl | hk2
      · exact Or.inr (hp.1 last (List.mem_of_getLast?_eq_some hl2))
      · exact ih hp.2 hk2 hl2

theorem print_actions_goto_of_last (D : Defs) (T : Tables) (state : Int) (sp : shifts)
    (hsp : T.shift_table state = some sp) :
    ((∀ k ∈ sp.shift, D.ISVAR (T.accessing_symbol k) = true →
        ∃ last, sp.shift.getLast? = some last ∧ D.ISVAR (T.accessing_symbol last) = true) →
      (print_actions D T state).filter Out.is_goto =
        (sp.shift.filter (fun k => D.ISVAR (T.accessing_symbol k))).map
          (fun k => Out.goto (T.symbol_name (T.accessing_symbol k)) k))
    ∧ (∀ last, sp.shift.getLast? = some last → D.ISVAR (T.accessing_symbol last) = false →
        (print_actions D T state).filter Out.is_goto = []) := by
  constructor
  · intro h
    unfold print_actions
    rw [List.filter_append, print_actions_head_no_goto, List.nil_append]
    unfold print_actions_gotos
    rw [hsp]
    simp only
    cases hl : sp.shift.getLast? with
    | none =>
      have : sp.shift = [] := List.getLast?_eq_none_iff.mp hl
      simp [this]
    | some last =>
      simp only
      by_cases hv : D.ISVAR (T.accessing_symbol last) = true
      · rw [if_pos hv]
        unfold print_gotos
        rw [List.filter_cons, print_gotos_loop_eq_filter, filter_is_goto_map_goto]
        rfl
      · rw [if_neg hv]
        symm
        rw [List.filter_nil, List.map_eq_nil_iff, List.filter_eq_nil_iff]
        intro k hk hkv
        obtain ⟨last', h1, h2⟩ := h k hk hkv
        rw [hl] at h1
        cases h1
        exact hv h2
  · intro last hl hv
    unfold print_actions
    rw [List.filter_append, print_actions_head_no_goto, List.nil_append]
    unfold print_actions_gotos
    rw [hsp]
    simp only [hl, hv]
    rfl

/-! ## The claims -/

/-- C1: for every action list `p` and every default-reduction rule `d`, `print_reductions`
prints an explicit line "terminal  reduce k" for exactly the REDUCE actions with
`suppressed == 0` and rule number other than `d`, in list order and with `k` the rule number
minus 2, so never for an action whose rule is `d`; after them it prints one line
".  reduce d-2" when `d > 0` and some REDUCE action has `suppressed < 2`. -/
theorem print_reductions_explicit_lines (D : Defs) (T : Tables) (p : List action) (d : Int) :
    print_reductions D T p d =
        (p.filter (fun a => a.action_code = D.REDUCE ∧ a.suppressed = 0 ∧ a.number ≠ d)).map
          (fun a => Out.reduce (T.symbol_name a.symbol) (a.number - 2))
        ++ (if ∃ q ∈ p, q.action_code = D.REDUCE ∧ q.suppressed < 2 then
              (if d > 0 then [Out.default_reduce (d - 2)] else [])
            else [Out.error])
      ∧ ∀ name k, Out.reduce name k ∈ print_reductions D T p d →
          ∃ a ∈ p, (a.action_code = D.REDUCE ∧ a.suppressed = 0 ∧ a.number ≠ d)
            ∧ name = T.symbol_name a.symbol ∧ k = a.number - 2 := by
  refine ⟨print_reductions_eq D T p d, fun name k h => ?_⟩
  rw [print_reductions_eq, List.mem_append] at h
  rcases h with h | h
  · rw [List.mem_map] at h
    obtain ⟨a, ha, hline⟩ := h
    rw [List.mem_filter] at ha
    simp only [Out.reduce.injEq] at hline
    exact ⟨a, ha.1, by simpa using ha.2, hline.1.symm, hline.2.symm⟩
  · split at h
    · split at h <;> simp at h
    · simp at h

/-- C2: in `print_conflicts`, an action with `suppressed == 1` on symbol 0 that follows an
action on symbol 0 in the final state is reported as "state: shift/reduce conflict (accept,
reduce r) on $end" with `r` its rule number minus 2, whatever the kind of the action it
follows; and a line of this form is printed only in the final state and only for such an
action on symbol 0. -/
theorem print_conflicts_accept_form (D : Defs) (T : Tables) (state : Int) :
    (∀ (pre : List action) (a : action) (post : List action),
        state = T.final_state → last_symbol pre = 0 → a.symbol = 0 → a.suppressed = 1 →
        print_conflicts_list D T state (pre ++ a :: post) =
          print_conflicts_list D T state pre
            ++ Out.conflict_accept state (a.number - 2)
              :: print_conflicts_loop D T state
                  (print_conflicts_vars D T state (conflict_init D) pre) post)
    ∧ (∀ (l : List action) (s r : Int),
        Out.conflict_accept s r ∈ print_conflicts_list D T state l →
        (s = state ∧ state = T.final_state)
          ∧ ∃ a ∈ l, a.symbol = 0 ∧ a.suppressed = 1 ∧ r = a.number - 2) := by
  refine ⟨?_, fun l s r h => conflict_accept_mem_loop D T state l _ s r h⟩
  intro pre a post hf hl ha h1
  have hv := print_conflicts_vars_symbol D T state pre
  rw [hl] at hv
  rw [print_conflicts_list_conflict D T state pre a post h1 (by rw [ha, hv]),
    print_conflicts_step_conflict D T state _ a h1 (by rw [ha, hv]), if_pos ⟨hf, hv⟩,
    List.append_assoc]
  rfl

/-- Witness of C2: in the final state 1, a suppressed reduce by rule 4 on `$end` after the
shift on `$end` gives the accept form with rule 2. -/
theorem print_conflicts_accept_form_witness :
    print_conflicts_list example_defs example_tables 1 ([⟨0, 2, 1, 0⟩] ++ ⟨0, 4, 2, 1⟩ :: [])
      = [Out.conflict_accept 1 2] :=
  ((print_conflicts_accept_form example_defs example_tables 1).1 [⟨0, 2, 1, 0⟩] ⟨0, 4, 2, 1⟩ []
    (by decide) (by decide) (by decide) (by decide)).trans (by decide)

/-- C3: for every state whose items lie in a well-formed item table (`item_wf`),
`print_core` returns and prints for each item, in order, one line
"lhs : consumed . remaining  (n)": the name of `rlhs[r]`, the symbols of `ritem` from
`rrhs[r]` up to the item, the dot, the symbols from the item up to the entry `-r`, and
`n = r - 2`. -/
theorem print_core_lines (T : Tables) (state : Int) (views : List item_view)
    (hwf : List.Forall₂ (item_wf T) (T.state_table state).items views) :
    print_core T state =
      some (views.flatMap (fun iv =>
        [Out.core_lhs (T.symbol_name (T.rlhs iv.rule))]
          ++ iv.consumed.map (fun v => Out.core_consumed (T.symbol_name v))
          ++ [Out.dot]
          ++ iv.remaining.map (fun v => Out.rhs_symbol (T.symbol_name v))
          ++ [Out.rule_number (iv.rule - 2)])) :=
  print_core_some T state views hwf

/-- Witness of C3: the core of state 1 of the small grammar, the item `$accept : S . $end`. -/
theorem print_core_lines_witness :
    List.Forall₂ (item_wf example_tables) (example_tables.state_table 1).items [⟨2, [4], [0]⟩]
      ∧ print_core example_tables 1 =
        some [Out.core_lhs "$accept", Out.core_consumed "S", Out.dot, Out.rhs_symbol "$end",
          Out.rule_number 0] :=
  ⟨List.Forall₂.cons ⟨by decide, by decide, ⟨_, rfl⟩, by decide⟩ List.Forall₂.nil,
    (print_core_lines example_tables 1 [⟨2, [4], [0]⟩]
      (List.Forall₂.cons ⟨by decide, by decide, ⟨_, rfl⟩, by decide⟩ List.Forall₂.nil)).trans
      (by decide)⟩

/-- C4: in `print_conflicts` (with SHIFT and REDUCE distinct codes), an action with
`suppressed == 2` prints nothing and leaves the recorded action as it is, so that removing
it from the list changes nothing; an action with `suppressed == 1` whose symbol is that of
the most recent action with `suppressed != 2` prints exactly one conflict line; outside the
final-state `$end` case that line is the shift/reduce form when the action recorded for the
symbol is a SHIFT and the reduce/reduce form otherwise, also when no action was recorded. -/
theorem print_conflicts_suppression_levels (D : Defs) (T : Tables) (state : Int)
    (hcodes : D.SHIFT ≠ D.REDUCE) :
    (∀ (v : conflict_vars) (p : action), p.suppressed = 2 →
        print_conflicts_step D T state v p = (v, []))
    ∧ (∀ (l1 : List action) (p : action) (l2 : List action), p.suppressed = 2 →
        print_conflicts_list D T state (l1 ++ p :: l2) = print_conflicts_list D T state (l1 ++ l2))
    ∧ (∀ (pre : List action) (a : action) (post : List action),
        a.suppressed = 1 → a.symbol = last_symbol pre →
        ∃ line,
          (line = Out.conflict_accept state (a.number - 2)
            ∨ (∃ n, line = Out.conflict_sr state n (a.number - 2) (T.symbol_name a.symbol))
            ∨ (∃ n, line = Out.conflict_rr state n (a.number - 2) (T.symbol_name a.symbol)))
          ∧ print_conflicts_list D T state (pre ++ a :: post) =
              print_conflicts_list D T state pre
                ++ line :: print_conflicts_loop D T state
                    (print_conflicts_vars D T state (conflict_init D) pre) post)
    ∧ (∀ (l1 : List action) (w : action) (l2 : List action) (a : action) (post : List action),
        w.suppressed ≠ 2 → last_symbol l1 ≠ w.symbol →
        (∀ x ∈ l2, x.suppressed ≠ 2 → x.symbol = w.symbol) →
        a.suppressed = 1 → a.symbol = w.symbol →
        print_conflicts_list D T state (l1 ++ w :: l2 ++ a :: post) =
          print_conflicts_list D T state (l1 ++ w :: l2)
            ++ (if state = T.final_state ∧ w.symbol = 0 then
                  Out.conflict_accept state (a.number - 2)
                else if w.action_code = D.SHIFT then
                  Out.conflict_sr state w.number (a.number - 2) (T.symbol_name w.symbol)
                else
                  Out.conflict_rr state (w.number - 2) (a.number - 2) (T.symbol_name w.symbol))
              :: print_conflicts_loop D T state
                  { symbol := w.symbol, number := w.number,
                    act := if w.action_code = D.SHIFT then D.SHIFT else D.REDUCE } post)
    ∧ (∀ (l2 : List action) (a : action) (post : List action),
        (∀ x ∈ l2, x.suppressed ≠ 2 → x.symbol = -1) →
        a.suppressed = 1 → a.symbol = -1 →
        print_conflicts_list D T state (l2 ++ a :: post) =
          print_conflicts_list D T state l2
            ++ Out.conflict_rr state (-2) (a.number - 2) (T.symbol_name (-1))
              :: print_conflicts_loop D T state (conflict_init D) post) := by
  refine ⟨fun v p h => print_conflicts_step_suppressed_two D T state v p h, ?_, ?_, ?_, ?_⟩
  · intro l1 p l2 h
    unfold print_conflicts_list
    rw [print_conflicts_loop_append, print_conflicts_loop_append]
    simp only [print_conflicts_loop, print_conflicts_vars,
      print_conflicts_step_suppressed_two D T state _ p h, List.nil_append]
  · intro pre a post h1 hs
    have hv := print_conflicts_vars_symbol D T state pre
    have hs2 : a.symbol = (print_conflicts_vars D T state (conflict_init D) pre).symbol := by
      rw [hv]; exact hs
    rw [print_conflicts_list_conflict D T state pre a post h1 hs2,
      print_conflicts_step_conflict D T state _ a h1 hs2]
    refine ⟨_, ?_, by rw [List.append_assoc]; rfl⟩
    rw [← hs2]
    by_cases hf : state = T.final_state ∧ a.symbol = 0
    · rw [if_pos hf]; exact Or.inl rfl
    · rw [if_neg hf]
      by_cases hc : (print_conflicts_vars D T state (conflict_init D) pre).act = D.SHIFT
      · rw [if_pos hc]; exact Or.inr (Or.inl ⟨_, rfl⟩)
      · rw [if_neg hc]; exact Or.inr (Or.inr ⟨_, rfl⟩)
  · intro l1 w l2 a post hw hrec hl2 ha1 hasym
    have hvars := print_conflicts_vars_recorded D T state l1 w l2 hw hrec hl2
    rw [show l1 ++ w :: l2 ++ a :: post = (l1 ++ w :: l2) ++ a :: post by simp,
      print_conflicts_list_conflict D T state (l1 ++ w :: l2) a post ha1 (by rw [hvars, hasym]),
      print_conflicts_step_conflict D T state _ a ha1 (by rw [hvars, hasym]), hvars,
      List.append_assoc]
    congr 1
    simp only [List.singleton_append, List.cons.injEq, and_true]
    by_cases hf : state = T.final_state ∧ w.symbol = 0
    · rw [if_pos hf, if_pos hf]
    · rw [if_neg hf, if_neg hf]
      by_cases hc : w.action_code = D.SHIFT
      · simp only [if_pos hc, if_true]
      · simp only [if_neg hc, if_neg (Ne.symm hcodes)]
  · intro l2 a post hl2 ha1 hasym
    have hvars : print_conflicts_vars D T state (conflict_init D) l2 = conflict_init D :=
      print_conflicts_vars_same D T state _ l2 hl2
    rw [print_conflicts_list_conflict D T state l2 a post ha1 (by rw [hvars, hasym]; rfl),
      print_conflicts_step_conflict D T state _ a ha1 (by rw [hvars, hasym]; rfl), hvars,
      List.append_assoc]
    congr 1
    have hz : ¬ (state = T.final_state ∧ (conflict_init D).symbol = 0) := by
      simp [conflict_init]
    have hact : ¬ (conflict_init D).act = D.SHIFT := fun h => hcodes h.symm
    rw [if_neg hz, if_neg hact]
    rfl

/-- Witness of C4: in state 0 of the small grammar the reduce by rule 4 on `a`, suppressed
with level 1 after the shift on `a`, prints a shift/reduce line; with level 2 it prints
nothing. -/
theorem print_conflicts_suppression_levels_witness :
    print_conflicts_list example_defs example_tables 0
        ([] ++ ⟨2, 3, 1, 0⟩ :: [] ++ ⟨2, 4, 2, 1⟩ :: [⟨0, 4, 2, 0⟩])
        = [Out.conflict_sr 0 3 2 "a"]
      ∧ print_conflicts_list example_defs example_tables 0
          ([⟨2, 3, 1, 0⟩] ++ ⟨2, 4, 2, 2⟩ :: [⟨0, 4, 2, 0⟩]) = [] :=
  ⟨((print_conflicts_suppression_levels example_defs example_tables 0 (by decide)).2.2.2.1
      [] ⟨2, 3, 1, 0⟩ [] ⟨2, 4, 2, 1⟩ [⟨0, 4, 2, 0⟩] (by decide) (by decide) (by decide)
      (by decide) (by decide)).trans (by decide),
    ((print_conflicts_suppression_levels example_defs example_tables 0 (by decide)).2.1
      [⟨2, 3, 1, 0⟩] ⟨2, 4, 2, 2⟩ [⟨0, 4, 2, 0⟩] (by decide)).trans (by decide)⟩

/-- C5: for every state and every transition list of it in which no transition on a
terminal comes after a transition on a nonterminal (the order in which the transitions of a
state are kept, and on which the test of `print_actions` on the last transition relies),
the goto lines of `print_actions` are one line "nonterminal  goto target" for each
transition whose target is accessed by a nonterminal, in transition order, and there is no
goto line for a transition on a terminal. -/
theorem print_actions_goto_lines (D : Defs) (T : Tables) (state : Int) (sp : shifts)
    (hsp : T.shift_table state = some sp)
    (hord : sp.shift.Pairwise (fun a b =>
      D.ISVAR (T.accessing_symbol a) = true → D.ISVAR (T.accessing_symbol b) = true)) :
    (print_actions D T state).filter Out.is_goto =
        (sp.shift.filter (fun k => D.ISVAR (T.accessing_symbol k))).map
          (fun k => Out.goto (T.symbol_name (T.accessing_symbol k)) k)
      ∧ (∀ name k, Out.goto name k ∈ print_actions D T state →
          (k ∈ sp.shift ∧ D.ISVAR (T.accessing_symbol k) = true)
            ∧ name = T.symbol_name (T.accessing_symbol k)) := by
  have heq : (print_actions D T state).filter Out.is_goto =
      (sp.shift.filter (fun k => D.ISVAR (T.accessing_symbol k))).map
        (fun k => Out.goto (T.symbol_name (T.accessing_symbol k)) k) := by
    refine (print_actions_goto_of_last D T state sp hsp).1 (fun k hk hv => ?_)
    cases hl : sp.shift.getLast? with
    | none =>
      have : sp.shift = [] := List.getLast?_eq_none_iff.mp hl
      rw [this] at hk
      simp at hk
    | some last =>
      refine ⟨last, rfl, ?_⟩
      rcases pairwise_getLast _ sp.shift hord k hk last hl with h | h
      · rw [← h]; exact hv
      · exact h hv
  refine ⟨heq, fun name k hmem => ?_⟩
  have hf : Out.goto name k ∈ (print_actions D T state).filter Out.is_goto :=
    List.mem_filter.mpr ⟨hmem, rfl⟩
  rw [heq, List.mem_map] at hf
  obtain ⟨k2, hk2, hline⟩ := hf
  rw [List.mem_filter] at hk2
  simp only [Out.goto.injEq] at hline
  obtain ⟨hn, hkk⟩ := hline
  subst hkk
  exact ⟨⟨hk2.1, hk2.2⟩, hn.symm⟩

/-- Witness of C5: state 0 of the small grammar, with the transitions on `a`, `S` and `E`
in this order. -/
theorem print_actions_goto_lines_witness :
    (print_actions example_defs example_tables 0).filter Out.is_goto
      = [Out.goto "S" 1, Out.goto "E" 2] :=
  ((print_actions_goto_lines example_defs example_tables 0 ⟨[3, 1, 2]⟩ (by decide)
    (by decide)).1).trans (by decide)

/-- C6: when the right-hand side of every unused rule ends in `ritem` (a negative entry
follows it), `log_unused` returns and prints, after the header "Rules never reduced:", one
line for each rule `i` with `3 <= i < nrules` and `rules_used[i] == 0`, in ascending order
of `i`: the left-hand side, the whole right-hand side and the number `i - 2`; the other
rules give no line. -/
theorem log_unused_lines (T : Tables)
    (hterm : ∀ i : Nat, 3 ≤ i → i < T.nrules → T.rules_used i = 0 →
      ∃ x ∈ T.ritem.drop (T.rrhs i), x < 0) :
    log_unused T =
      some (Out.unused_header ::
        ((List.range' 3 (T.nrules - 3)).filter
            (fun i : Nat => decide (T.rules_used i = 0))).flatMap
          (fun i : Nat =>
            [Out.rule_lhs (T.symbol_name (T.rlhs i))]
              ++ (rule_rhs T i).map (fun v => Out.rhs_symbol (T.symbol_name v))
              ++ [Out.rule_number ((i : Int) - 2)])) := by
  unfold log_unused
  rw [log_unused_loop_eq T _ 3 (fun k h1 h2 => hterm k h1 (by omega))]
  rfl

/-- Witness of C6: in the small grammar only rule 5, `E : a`, is unused. -/
theorem log_unused_lines_witness :
    (∀ i : Nat, 3 ≤ i → i < example_tables.nrules → example_tables.rules_used i = 0 →
        ∃ x ∈ example_tables.ritem.drop (example_tables.rrhs i), x < 0)
      ∧ log_unused example_tables =
        some [Out.unused_header, Out.rule_lhs "E", Out.rhs_symbol "a", Out.rule_number 3] :=
  ⟨by decide, (log_unused_lines example_tables (by decide)).trans (by decide)⟩

/-- C7: the report is a function of the tables alone. For any two contents of the scratch
array `null_rules` of `nrules` entries, `verbose` gives the same result, hence the same text,
so that two runs on the same automaton print the same text; and on well-formed tables (items
in a well-formed item table, empty rules numbered below `nrules`, right-hand sides of unused
rules ending in `ritem`) both runs return that text. The tables are arguments of `verbose`,
which has no other result than the text. -/
theorem verbose_text_function_of_tables (D : Defs) (T : Tables) (scratch1 scratch2 : List Int)
    (h1 : scratch1.length = T.nrules) (h2 : scratch2.length = T.nrules) :
    verbose D T scratch1 = verbose D T scratch2
      ∧ (verbose D T scratch1).map text = (verbose D T scratch2).map text
      ∧ ((∀ s : Nat, s < T.nstates →
            ∃ views, List.Forall₂ (item_wf T) (T.state_table s).items views) →
          (∀ s : Nat, s < T.nstates →
            ∀ a ∈ T.parser s, null_action D T a → 0 ≤ a.number ∧ a.number < T.nrules) →
          (∀ i : Nat, 3 ≤ i → i < T.nrules → T.rules_used i = 0 →
            ∃ x ∈ T.ritem.drop (T.rrhs i), x < 0) →
          ∃ o, verbose D T scratch1 = some o ∧ verbose D T scratch2 = some o) := by
  have heq := verbose_same D T scratch1 scratch2 (by rw [h1, h2])
  refine ⟨heq, by rw [heq], fun hcore hnull hterm => ?_⟩
  obtain ⟨o, ho⟩ := verbose_some D T scratch1 hcore hnull hterm h1
  exact ⟨o, ho, by rw [← heq]; exact ho⟩

/-- Witness of C7: the report of the small grammar from two different scratch arrays. -/
theorem verbose_text_function_of_tables_witness :
    verbose example_defs example_tables [0, 0, 0, 0, 0, 0]
        = verbose example_defs example_tables [9, 8, 7, 6, 5, 4]
      ∧ ∃ o, verbose example_defs example_tables [0, 0, 0, 0, 0, 0] = some o
          ∧ verbose example_defs example_tables [9, 8, 7, 6, 5, 4] = some o :=
  ⟨(verbose_text_function_of_tables example_defs example_tables [0, 0, 0, 0, 0, 0]
      [9, 8, 7, 6, 5, 4] (by decide) (by decide)).1,
    (verbose_text_function_of_tables example_defs example_tables [0, 0, 0, 0, 0, 0]
      [9, 8, 7, 6, 5, 4] (by decide) (by decide)).2.2
      (fun s hs => by
        have hs2 : s = 0 ∨ s = 1 := by
          have : s < 2 := hs
          omega
        rcases hs2 with rfl | rfl
        · exact ⟨[⟨2, [], [4, 0]⟩, ⟨3, [], [5, 2]⟩, ⟨4, [], []⟩, ⟨5, [], [2]⟩],
            List.Forall₂.cons ⟨by decide, by decide, ⟨_, rfl⟩, by decide⟩
              (List.Forall₂.cons ⟨by decide, by decide, ⟨_, rfl⟩, by decide⟩
              (List.Forall₂.cons ⟨by decide, by decide, ⟨_, rfl⟩, by decide⟩
              (List.Forall₂.cons ⟨by decide, by decide, ⟨_, rfl⟩, by decide⟩
                List.Forall₂.nil)))⟩
        · exact ⟨[⟨2, [4], [0]⟩],
            List.Forall₂.cons ⟨by decide, by decide, ⟨_, rfl⟩, by decide⟩ List.Forall₂.nil⟩)
      (by decide) (by decide)⟩

/-- C8: for every non-empty action list without a REDUCE action with `suppressed < 2`, and
every default-reduction argument, `print_reductions` prints the line ".  error" and nothing
else, so no reduce line; in `print_actions` the lines for the list are those of
`print_shifts` and then ".  error". -/
theorem print_reductions_error_only (D : Defs) (T : Tables) (p : List action) (d : Int)
    (hne : p ≠ []) (hno : ∀ q ∈ p, ¬ (q.action_code = D.REDUCE ∧ q.suppressed < 2)) :
    print_reductions D T p d = [Out.error]
      ∧ (∀ name k, Out.reduce name k ∉ print_reductions D T p d)
      ∧ (∀ k, Out.default_reduce k ∉ print_reductions D T p d)
      ∧ (∀ stateno, T.parser stateno = p → T.defred stateno = d →
          print_actions_list D T stateno = print_shifts D T p ++ [Out.error]) := by
  have hany : ¬ ∃ q ∈ p, q.action_code = D.REDUCE ∧ q.suppressed < 2 :=
    fun ⟨q, hq, h⟩ => hno q hq h
  have h0 : print_reductions_any D p = 0 := by
    by_contra hc
    exact hany ((print_reductions_any_ne_zero_iff D p).mp hc)
  have herr : print_reductions D T p d = [Out.error] := by
    unfold print_reductions
    rw [if_pos h0]
  refine ⟨herr, fun name k => by rw [herr]; simp, fun k => by rw [herr]; simp, ?_⟩
  intro stateno hp hd
  unfold print_actions_list
  rw [hp, hd]
  cases p with
  | nil => exact absurd rfl hne
  | cons a rest => simp only [herr]

/-- Witness of C8: the action list of state 1 of the small grammar, a single shift. -/
theorem print_reductions_error_only_witness :
    print_reductions example_defs example_tables [⟨0, 2, 1, 0⟩] 7 = [Out.error] :=
  (print_reductions_error_only example_defs example_tables [⟨0, 2, 1, 0⟩] 7 (by decide)
    (by decide)).1

/-- C9: for an action list whose empty rules are numbered from 0 to `nrules - 1` and a
scratch array of `nrules` entries, `print_nulls` returns and prints one line
"lhs : .  (r-2)" for each empty rule `r` that occurs as a REDUCE action with `suppressed` 0
or 1, once for each rule, in strictly ascending order of `r`; and after every part of the
list the scan has written inside the array, its first `nnulls` entries are strictly
increasing and `nnulls` is the number of distinct such rules met so far, at most the number
of distinct such rules of the list, which is at most `nrules`. -/
theorem print_nulls_distinct_ascending (D : Defs) (T : Tables) (l : List action)
    (null_rules : List Int) (hlen : null_rules.length = T.nrules)
    (hrules : ∀ a ∈ l, null_action D T a → 0 ≤ a.number ∧ a.number < T.nrules) :
    ∃ (L arr : List Int),
      print_nulls_list D T l null_rules =
          some (L.map (fun r => Out.null_rule (T.symbol_name (T.rlhs r)) (r - 2))
            ++ [Out.newline], arr)
        ∧ L.Sorted (· < ·)
        ∧ (∀ r, r ∈ L ↔ ∃ a ∈ l, null_action D T a ∧ a.number = r)
        ∧ (∀ pre post, l = pre ++ post →
            ∃ (arr1 : List Int) (nnulls : Nat),
              print_nulls_scan D T pre null_rules 0 = some (arr1, nnulls)
                ∧ arr1.length = T.nrules
                ∧ (arr1.take nnulls).Sorted (· < ·)
                ∧ nnulls = null_count D T pre
                ∧ nnulls ≤ null_count D T l
                ∧ null_count D T l ≤ T.nrules) := by
  have hcount : null_count D T l ≤ T.nrules := null_count_le D T l hrules
  have hL : (null_list D T l []).length ≤ null_rules.length := by
    rw [null_list_length, hlen]; exact hcount
  refine ⟨null_list D T l [], null_list D T l [] ++ null_rules.drop (null_list D T l []).length,
    ?_, sorted_null_list D T l [] (by simp), ?_, ?_⟩
  · rw [print_nulls_list_spec, if_pos hL]
  · intro r
    rw [mem_null_list]
    simp
  · intro pre post hl
    have hpre : null_count D T pre ≤ null_count D T l := by
      rw [hl]; exact null_count_append_le D T pre post
    have hpre2 : null_count D T pre ≤ null_rules.length := by omega
    refine ⟨_, _, print_nulls_scan_part D T pre null_rules hpre2, ?_, ?_, rfl, hpre, hcount⟩
    · rw [List.length_append, List.length_drop, null_list_length]; omega
    · rw [← null_list_length, List.take_left]
      exact sorted_null_list D T pre [] (by simp)

/-- Witness of C9: the action list of state 0 of the small grammar, where the empty rule 4
is the rule of two actions, and a scratch array of 6 entries. -/
theorem print_nulls_distinct_ascending_witness :
    ∃ (L arr : List Int),
      print_nulls_list example_defs example_tables
          [⟨2, 3, 1, 0⟩, ⟨2, 4, 2, 1⟩, ⟨0, 4, 2, 0⟩] [7, 7, 7, 7, 7, 7] =
          some (L.map (fun r =>
              Out.null_rule (example_tables.symbol_name (example_tables.rlhs r)) (r - 2))
            ++ [Out.newline], arr)
        ∧ L.Sorted (· < ·)
        ∧ (∀ r, r ∈ L ↔ ∃ a ∈ ([⟨2, 3, 1, 0⟩, ⟨2, 4, 2, 1⟩, ⟨0, 4, 2, 0⟩] : List action),
            null_action example_defs example_tables a ∧ a.number = r)
        ∧ (∀ pre post,
            ([⟨2, 3, 1, 0⟩, ⟨2, 4, 2, 1⟩, ⟨0, 4, 2, 0⟩] : List action) = pre ++ post →
            ∃ (arr1 : List Int) (nnulls : Nat),
              print_nulls_scan example_defs example_tables pre [7, 7, 7, 7, 7, 7] 0
                  = some (arr1, nnulls)
                ∧ arr1.length = example_tables.nrules
                ∧ (arr1.take nnulls).Sorted (· < ·)
                ∧ nnulls = null_count example_defs example_tables pre
                ∧ nnulls ≤ null_count example_defs example_tables
                    [⟨2, 3, 1, 0⟩, ⟨2, 4, 2, 1⟩, ⟨0, 4, 2, 0⟩]
                ∧ null_count example_defs example_tables
                    [⟨2, 3, 1, 0⟩, ⟨2, 4, 2, 1⟩, ⟨0, 4, 2, 0⟩] ≤ example_tables.nrules) :=
  print_nulls_distinct_ascending example_defs example_tables
    [⟨2, 3, 1, 0⟩, ⟨2, 4, 2, 1⟩, ⟨0, 4, 2, 0⟩] [7, 7, 7, 7, 7, 7] (by decide) (by decide)

/-- C10: in `create_file_names` with `-d` set and the output file name given with `-o`,
when the part of the name that starts at its last '.' is one of ".c", ".C", ".cc", ".cxx",
".cpp", `defines_file_name` becomes the name with that part replaced by ".h" and `dflag`
keeps its value; when the name has no '.' or the part is anything else, `dflag` becomes 0
and `defines_file_name` is null. -/
theorem create_file_names_defines (S : Suffixes) (g : Names) (name : List Char)
    (hd : g.dflag ≠ 0) (he : g.explicit_file_name ≠ 0) (hn : g.output_file_name = some name)
    (hnul : '\x00' ∉ name) :
    (∀ stem ext, name = stem ++ '.' :: ext → '.' ∉ ext →
        '.' :: ext ∈ [".c".toList, ".C".toList, ".cc".toList, ".cxx".toList, ".cpp".toList] →
        ∃ g1, create_file_names S g = some g1
          ∧ g1.defines_file_name = some (stem ++ ".h".toList) ∧ g1.dflag = g.dflag)
    ∧ (('.' ∉ name ∨ ∃ stem ext, name = stem ++ '.' :: ext ∧ '.' ∉ ext
          ∧ '.' :: ext ∉ [".c".toList, ".C".toList, ".cc".toList, ".cxx".toList,
              ".cpp".toList]) →
        ∃ g1, create_file_names S g = some g1
          ∧ g1.defines_file_name = none ∧ g1.dflag = 0) := by
  constructor
  · intro stem ext hname hdot hk
    have hk1 := (known_suffix_iff _).mpr hk
    cases ext with
    | nil => simp [known_suffix] at hk1
    | cons e ext =>
      have hstem : '\x00' ∉ stem := fun hc => hnul (by rw [hname]; exact List.mem_append_left _ hc)
      unfold create_file_names
      simp only [hn, if_pos hd, if_pos he, hname,
        create_defines_name_known g.progname stem e ext g.dflag hdot hstem hk1]
      exact ⟨_, rfl, rfl, rfl⟩
  · intro h
    have h1 : '.' ∉ name ∨ ∃ stem ext, name = stem ++ '.' :: ext ∧ '.' ∉ ext
        ∧ known_suffix ('.' :: ext) = false := by
      rcases h with h | ⟨stem, ext, h1, h2, h3⟩
      · exact Or.inl h
      · refine Or.inr ⟨stem, ext, h1, h2, ?_⟩
        cases hk : known_suffix ('.' :: ext) with
        | false => rfl
        | true => exact absurd ((known_suffix_iff _).mp hk) h3
    unfold create_file_names
    simp only [hn, if_pos hd, if_pos he, create_defines_name_unknown g.progname name g.dflag h1]
    exact ⟨_, rfl, rfl, rfl⟩

/-- Witness of C10: `yacc -d -o gram.tab.cc` makes the header `gram.tab.h`, and
`yacc -d -o gram.y` makes none. -/
theorem create_file_names_defines_witness :
    (∃ g1, create_file_names example_suffixes (example_names "gram.tab.cc".toList) = some g1
        ∧ g1.defines_file_name = some ("gram.tab".toList ++ ".h".toList)
        ∧ g1.dflag = (example_names "gram.tab.cc".toList).dflag)
      ∧ (∃ g1, create_file_names example_suffixes (example_names "gram.y".toList) = some g1
        ∧ g1.defines_file_name = none ∧ g1.dflag = 0) :=
  ⟨(create_file_names_defines example_suffixes (example_names "gram.tab.cc".toList)
      "gram.tab.cc".toList (by decide) (by decide) rfl (by decide)).1
      "gram.tab".toList "cc".toList rfl (by decide) (by decide),
    (create_file_names_defines example_suffixes (example_names "gram.y".toList)
      "gram.y".toList (by decide) (by decide) rfl (by decide)).2
      (Or.inr ⟨"gram".toList, "y".toList, rfl, by decide, by decide⟩)⟩

end Yacc
